import Mathlib

/-! Verification of the rust-ipfs unixfs directory-tree builder
(`src/unixfs/src/dir/builder/iter.rs`), shallowly embedded in Lean.

Byte strings and Rust `String`s are modelled as `List Nat` (their UTF-8
bytes); the slash byte is `47`.  Machine integers are natural numbers; the
two `u64` additions performed on caller-supplied sizes reduce modulo
`2 ^ 64`. -/

namespace UnixFsIter

/-- The `u64` modulus. -/
def U64 : Nat := 2 ^ 64

/-- LEB128 varint encoding step function, structurally recursive on a fuel
argument.  Mirrors the protobuf writer's `write_varint` loop; the fuel is
always sufficient when instantiated with the value itself. -/
def leb128F : Nat → Nat → List Nat
  | 0, v => [v]
  | f + 1, v => if v < 128 then [v] else (v % 128 + 128) :: leb128F f (v / 128)

/-- LEB128 varint encoding, as emitted by `quick_protobuf`'s
`Writer::write_varint`. -/
def leb128 (v : Nat) : List Nat := leb128F v v

/-- `quick_protobuf::sizeofs::sizeof_varint`: the byte length of the varint
encoding of `v`. -/
def sizeof_varint (v : Nat) : Nat := (leb128 v).length

/-- `quick_protobuf::sizeofs::sizeof_len`: the size of a length-delimited
field of payload length `len` (the length varint plus the payload). -/
def sizeof_len (len : Nat) : Nat := sizeof_varint len + len

/-- Writer primitive: `Writer::write_varint` appends the varint encoding. -/
def write_varint (w : List Nat) (v : Nat) : List Nat := w ++ leb128 v

/-- Writer primitive: `Writer::write_bytes` writes the length as a varint and
then the raw bytes. -/
def write_bytes (w : List Nat) (bs : List Nat) : List Nat :=
  write_varint w bs.length ++ bs

/-- Writer primitive: `Writer::write_uint64` (values are `u64`). -/
def write_uint64 (w : List Nat) (v : Nat) : List Nat := write_varint w (v % U64)

/-- Modelled from the spec: a content identifier (the `cid` crate is an
external collaborator, specified only at its interface).  Only its native
self-describing binary encoding `to_bytes` is observable to the renderer, so
a CID is modelled by those bytes. -/
structure Cid where
  bytes : List Nat
deriving DecidableEq, Repr

/-- `Cid::to_bytes`: the native binary encoding of the identifier. -/
def Cid.to_bytes (c : Cid) : List Nat := c.bytes

/-- Modelled from the spec: SHA-256 (external `sha2` crate).  Abstracted as a
deterministic function of the input bytes; no claim depends on cryptographic
properties of the digest. -/
def sha256 (bs : List Nat) : List Nat := (bs ++ List.replicate 32 0).take 32

/-- Modelled from the spec: `multihash::wrap(Code::Sha2_256, digest)`, the
self-describing multihash framing of a SHA-256 digest (code `0x12`,
length `0x20`). -/
def multihash_wrap_sha256 (digest : List Nat) : List Nat := 18 :: 32 :: digest

/-- Modelled from the spec: `Cid::new_v0(multihash)`, a version-0 content
identifier whose byte encoding is exactly the multihash bytes. -/
def Cid.new_v0 (mh : List Nat) : Cid := ⟨mh⟩

/-- A finalized entry: content identifier plus cumulative byte size
(`Leaf` in `builder.rs`, used throughout `iter.rs`). -/
structure Leaf where
  link : Cid
  total_size : Nat
deriving DecidableEq, Repr

/-- Modelled from the spec: the error type `TreeConstructionFailed` of
`builder.rs`; `iter.rs` constructs the `TooLargeBlock(size)` and
`Protobuf(_)` variants. -/
inductive TreeConstructionFailed where
  | TooLargeBlock (size : Nat)
  | Protobuf
deriving DecidableEq, Repr

/-- Modelled from the spec: the configuration bundle `TreeOptions` with the
two recognized options. -/
structure TreeOptions where
  wrap_with_directory : Bool
  block_size_limit : Option Nat
deriving DecidableEq, Repr

/-- Rust byte-wise lexicographic strict order on byte strings (the `Ord`
instance of `String`/`[u8]` used by `BTreeMap<String, _>`). -/
def lexLt : List Nat → List Nat → Bool
  | [], [] => false
  | [], _ :: _ => true
  | _ :: _, [] => false
  | a :: as, b :: bs => if a < b then true else if b < a then false else lexLt as bs

/-- A `BTreeMap<String, Leaf>` is modelled as its (sorted) association list;
iteration order is list order. -/
abbrev BMap := List (List Nat × Leaf)

/-- `BTreeMap::insert`: insert keeping keys sorted, replacing (and
returning) any previous binding of the key. -/
def bInsert (k : List Nat) (v : Leaf) : BMap → Option Leaf × BMap
  | [] => (none, [(k, v)])
  | (k2, v2) :: rest =>
    if lexLt k k2 then (none, (k, v) :: (k2, v2) :: rest)
    else if lexLt k2 k then
      let r := bInsert k v rest
      (r.1, (k2, v2) :: r.2)
    else (some v2, (k, v) :: rest)

/-- `BTreeMap::extend`: insert every pair in order; later bindings of a key
silently overwrite earlier ones. -/
def bExtend (m : BMap) (kvs : List (List Nat × Leaf)) : BMap :=
  kvs.foldl (fun acc kv => (bInsert kv.1 kv.2 acc).2) m

/-- `BTreeMap::get`-style lookup on the association-list model. -/
def bLookup (k : List Nat) : BMap → Option Leaf
  | [] => none
  | (k2, v2) :: rest => if k2 = k then some v2 else bLookup k rest

/-- `EntryAsPBLink::get_size` (iter.rs lines 140-150): the ones are the
tags; name, CID bytes and cumulative size contribute their field sizes. -/
def entry_get_size (k : List Nat) (l : Leaf) : Nat :=
  1 + sizeof_len k.length
    + 1 + sizeof_len l.link.to_bytes.length
    + 1 + sizeof_varint (l.total_size % U64)

/-- `EntryAsPBLink::write_message` (iter.rs lines 152-161): tag 10 carries
the CID's `to_bytes` form verbatim as one opaque byte string, tag 18 the
name, tag 24 the cumulative size. -/
def entry_write_message (k : List Nat) (l : Leaf) (w : List Nat) : List Nat :=
  let w1 := write_bytes (write_varint w 10) l.link.to_bytes
  let w2 := write_bytes (write_varint w1 18) k
  write_uint64 (write_varint w2 24) l.total_size

/-- Modelled from the spec: the serialized `UnixFs` metadata message with
`Type = UnixFsType::Directory` (generated protobuf code under
`src/unixfs/src/pb`, not part of the provided sources): one enum field,
tag 8, value `Directory = 1`. -/
def unixfs_directory_bytes : List Nat := [8, 1]

/-- Modelled from the spec: `UnixFs::get_size` for the directory-typed
metadata message. -/
def unixfs_directory_size : Nat := unixfs_directory_bytes.length

/-- `BTreeMappedDir::get_size` (iter.rs lines 165-176): sum of the
length-delimited link fields plus the length-delimited data field. -/
def dir_get_size (links : BMap) : Nat :=
  (links.map (fun kv => 1 + sizeof_len (entry_get_size kv.1 kv.2))).sum
    + 1 + sizeof_len unixfs_directory_size

/-- `BTreeMappedDir::write_message` (iter.rs lines 177-186): each map entry
is written as a tag-18 nested link message (in map iteration order, i.e.
ascending key order), followed by the single tag-10 data message. -/
def dir_write_message (links : BMap) (w : List Nat) : List Nat :=
  let w1 := links.foldl
    (fun acc kv =>
      entry_write_message kv.1 kv.2 (write_varint (write_varint acc 18) (entry_get_size kv.1 kv.2)))
    w
  write_varint (write_varint w1 10) unixfs_directory_size ++ unixfs_directory_bytes

/-- The `u64` sum of the children's cumulative sizes
(`links.values().map(total_size).sum::<u64>()`, iter.rs lines 229-232). -/
def sum_u64 (links : BMap) : Nat :=
  links.foldl (fun a kv => (a + kv.2.total_size) % U64) 0

/-- `PostOrderIterator::render_directory` (iter.rs lines 60-238).  Returns
the result together with the scratch buffer (a `&mut Vec<u8>` in the
source).  The exact serialized size is computed first; a configured limit is
enforced before any buffer mutation; then the buffer is zero-extended to the
required size, the message is written over its front, and the buffer is
truncated to the exact written length. -/
def render_directory (links : BMap) (buffer : List Nat) (block_size_limit : Option Nat) :
    Except TreeConstructionFailed Leaf × List Nat :=
  let size := dir_get_size links
  let fits : Bool := block_size_limit.all (fun limit => decide (size ≤ limit))
  if fits then
    let buf1 := buffer ++ List.replicate (size - buffer.length) 0
    let written := dir_write_message links []
    if written.length ≤ buf1.length then
      let buf2 := (written ++ buf1.drop written.length).take size
      let cid := Cid.new_v0 (multihash_wrap_sha256 (sha256 buf2))
      (.ok { link := cid, total_size := (buf2.length + sum_u64 links) % U64 }, buf2)
    else
      (.error .Protobuf, buffer)
  else
    (.error (.TooLargeBlock size), buffer)

/-- `full_path.bytes().rposition(|ch| ch == b'/')` (iter.rs line 426): the
index of the last slash byte, if any. -/
def rposSlash : List Nat → Option Nat
  | [] => none
  | b :: rest =>
    match rposSlash rest with
    | some i => some (i + 1)
    | none => if b == 47 then some 0 else none

/-- The `while *old_depth >= depth && *old_depth > 0` popping loop of
`update_full_path` (iter.rs lines 423-438), structurally recursive on the
tracked depth, which decreases at every iteration.  `none` models the
`todo!` abort taken when no slash remains to pop. -/
def popLoop : List Nat → Nat → Nat → Option (List Nat × Nat)
  | fp, 0, _ => some (fp, 0)
  | fp, od + 1, depth =>
    if depth ≤ od + 1 then
      match rposSlash fp with
      | some i => popLoop (fp.take i) od depth
      | none => none
    else some (fp, od + 1)

/-- `update_full_path` (iter.rs lines 412-452).  `none` models the
non-recoverable aborts: the `todo!` in the popping loop and the final
`assert_eq!(*old_depth, depth)`. -/
def update_full_path (fp : List Nat) (old_depth : Nat) (name : Option (List Nat))
    (depth : Nat) : Option (List Nat × Nat) :=
  match (if depth < 2 then some ([], 0) else popLoop fp old_depth depth) with
  | none => none
  | some fpod =>
    let fp2 := match name with
      | some n => (if fpod.1.isEmpty then fpod.1 else fpod.1 ++ [47]) ++ n
      | none => fpod.1
    let od2 := match name with
      | some _ => fpod.2 + 1
      | none => fpod.2
    if od2 = depth then some (fp2, od2) else none

mutual
/-- Modelled from the spec: a child of an input tree node is either a nested
directory under construction or a finished leaf (`Entry` in `builder.rs`). -/
inductive Entry where
  | directory (d : DirBuilder) : Entry
  | leaf (l : Leaf) : Entry

/-- Modelled from the spec: a directory under construction (`DirBuilder` in
`builder.rs`): numeric id, optional parent id, and the sorted name-to-child
mapping (a `BTreeMap<String, Entry>`, modelled as its iteration-ordered
association list). -/
inductive DirBuilder where
  | mk (id : Nat) (parent_id : Option Nat) (nodes : List (List Nat × Entry)) : DirBuilder
end

def DirBuilder.id : DirBuilder → Nat
  | .mk i _ _ => i

def DirBuilder.parent_id : DirBuilder → Option Nat
  | .mk _ p _ => p

def DirBuilder.nodes : DirBuilder → List (List Nat × Entry)
  | .mk _ _ n => n

mutual
/-- Weight of an entry, used as the traversal termination measure. -/
def entryWeight : Entry → Nat
  | .directory d => dirWeight d
  | .leaf _ => 0

/-- Weight of a directory: strictly larger than the total weight of its
nested directories. -/
def dirWeight : DirBuilder → Nat
  | .mk _ _ nodes => 2 + nodesWeight nodes

/-- Total weight of a child list. -/
def nodesWeight : List (List Nat × Entry) → Nat
  | [] => 0
  | kv :: rest => entryWeight kv.2 + nodesWeight rest
end

mutual
/-- Well-formedness of an entry (see `wfDir`). -/
def wfEntry : Entry → Bool
  | .directory d => wfDir d
  | .leaf _ => true

/-- Well-formedness of an input tree, as guaranteed by the out-of-scope
assembly API: child names are slash-free, nonempty and strictly ascending
(the `BTreeMap` invariant), recursively. -/
def wfDir : DirBuilder → Bool
  | .mk _ _ nodes => wfNodes nodes

/-- Well-formedness of a child list. -/
def wfNodes : List (List Nat × Entry) → Bool
  | [] => true
  | kv :: rest =>
    decide (kv.1 ≠ []) && decide (¬ 47 ∈ kv.1) && wfEntry kv.2 &&
      (match rest with
        | [] => true
        | kv2 :: _ => lexLt kv.1 kv2.1) && wfNodes rest
end

/-- The directory children of a child list, in iteration order, as pushed by
the `Descent` arm (iter.rs lines 258-267). -/
def childrenDirs (nodes : List (List Nat × Entry)) : List (List Nat × DirBuilder) :=
  nodes.filterMap (fun kv => match kv.2 with
    | .directory d => some (kv.1, d)
    | .leaf _ => none)

/-- The file leaves of a child list, in iteration order, as collected by the
`Descent` arm (iter.rs line 265). -/
def childrenLeaves (nodes : List (List Nat × Entry)) : List (List Nat × Leaf) :=
  nodes.filterMap (fun kv => match kv.2 with
    | .directory _ => none
    | .leaf l => some (kv.1, l))

/-- A work-stack frame (`Visited` in iter.rs lines 25-39); `Post` is the
finalize frame. -/
inductive Visited where
  | Descent (node : DirBuilder) (name : Option (List Nat)) (depth : Nat)
  | Post (parent_id : Option Nat) (id : Nat) (name : Option (List Nat)) (depth : Nat)
      (leaves : List (List Nat × Leaf))

def frameName : Visited → Option (List Nat)
  | .Descent _ n _ => n
  | .Post _ _ n _ _ => n

def frameDepth : Visited → Nat
  | .Descent _ _ d => d
  | .Post _ _ _ d _ => d

/-- The propagation table `persisted_cids : HashMap<Option<u64>, BTreeMap<String, Leaf>>`,
modelled as an association list with unique keys. -/
abbrev CidTable := List (Option Nat × BMap)

/-- `HashMap::remove`: returns the removed value (if any) and the remaining
table. -/
def hmRemove (k : Option Nat) : CidTable → Option BMap × CidTable
  | [] => (none, [])
  | (k2, v) :: rest =>
    if k2 = k then (some v, rest)
    else
      let r := hmRemove k rest
      (r.1, (k2, v) :: r.2)

/-- `HashMap` lookup. -/
def hmLookup (k : Option Nat) : CidTable → Option BMap
  | [] => none
  | (k2, v) :: rest => if k2 = k then some v else hmLookup k rest

/-- Store a value under a key, replacing any existing binding. -/
def hmSet (k : Option Nat) (v : BMap) : CidTable → CidTable
  | [] => [(k, v)]
  | (k2, v2) :: rest => if k2 = k then (k, v) :: rest else (k2, v2) :: hmSet k v rest

/-- `self.persisted_cids.entry(parent_id).or_insert(collected).insert(name, leaf)`
(iter.rs lines 334-338): deposit a finalized child under its parent's table
entry (created empty if absent, `collected` having just been cleared),
returning any previous binding of the name. -/
def depositResult (t : CidTable) (pid : Option Nat) (n : List Nat) (leaf : Leaf) :
    Option Leaf × CidTable :=
  let m := (hmLookup pid t).getD []
  let r := bInsert n leaf m
  (r.1, hmSet pid r.2 t)

/-- A finished node (`TreeNode` in iter.rs lines 366-375, with the borrowed
buffers materialized). -/
structure TreeNode where
  path : List Nat
  cid : Cid
  total_size : Nat
  block : List Nat
deriving DecidableEq, Repr

/-- Outcome of processing one `Post` (finalize) frame. -/
inductive PostOut where
  | emit (node : TreeNode) (table : CidTable) (buffer : List Nat)
  | finishEarly
  | fail (e : TreeConstructionFailed)
  | panic
deriving DecidableEq, Repr

/-- The `Visited::Post` arm of `PostOrderIterator::next_borrowed`
(iter.rs lines 287-349), after the path update: move this id's accumulated
mapping out of the table, merge in the descend-time leaves, handle the
unwrapped synthetic root, render, deposit the result under the parent id
(asserting the name was absent), and emit.  `panic` models the two
`assert!` aborts. -/
def postStep (opts : TreeOptions) (table : CidTable) (buffer : List Nat) (fp : List Nat)
    (parent_id : Option Nat) (id : Nat) (name : Option (List Nat))
    (leaves : List (List Nat × Leaf)) : PostOut :=
  let rm := hmRemove (some id) table
  let collected := bExtend (rm.1.getD []) leaves
  if opts.wrap_with_directory = false ∧ parent_id = none then
    if collected.length = 1 then .finishEarly else .panic
  else
    match render_directory collected buffer opts.block_size_limit with
    | (.error e, _) => .fail e
    | (.ok leaf, buf2) =>
      match name with
      | some n =>
        let dep := depositResult rm.2 parent_id n leaf
        if dep.1.isSome then .panic
        else
          .emit { path := fp, cid := leaf.link, total_size := leaf.total_size, block := buf2 }
            dep.2 buf2
      | none =>
        .emit { path := fp, cid := leaf.link, total_size := leaf.total_size, block := buf2 }
          rm.2 buf2

/-- How the traversal ended: the stack was exhausted or the single-root
unwrap case fired (both return `None` in the source), a render error was
surfaced, or a programming-invariant assertion fired. -/
inductive Term where
  | finished
  | failed (e : TreeConstructionFailed)
  | panicked
deriving DecidableEq, Repr

/-- Termination measure of a frame. -/
def frameWeight : Visited → Nat
  | .Descent d _ _ => dirWeight d
  | .Post _ _ _ _ _ => 1

/-- Termination measure of the work stack. -/
def pendingWeight (l : List Visited) : Nat := (l.map frameWeight).sum

/-- The child `Descent` frames pushed by a `Descent` frame at depth `depth`
(iter.rs lines 258-267), in iteration order. -/
def descendChildren (nodes : List (List Nat × Entry)) (depth : Nat) : List Visited :=
  (childrenDirs nodes).map (fun kc => Visited.Descent kc.2 (some kc.1) (depth + 1))

theorem dirWeight_eq (d : DirBuilder) : dirWeight d = 2 + nodesWeight d.nodes := by
  cases d
  rfl

theorem childrenDirs_weight (nodes : List (List Nat × Entry)) :
    ((childrenDirs nodes).map (fun kc => dirWeight kc.2)).sum = nodesWeight nodes := by
  induction nodes with
  | nil => rfl
  | cons kv rest ih =>
    cases h : kv.2 with
    | directory d =>
      simp only [childrenDirs, List.filterMap_cons, h, List.map_cons, List.sum_cons] at ih ⊢
      rw [ih]
      simp [nodesWeight, entryWeight, h]
    | leaf l =>
      simp only [childrenDirs, List.filterMap_cons, h] at ih ⊢
      rw [ih]
      simp [nodesWeight, entryWeight, h]

theorem descendChildren_weight (nodes : List (List Nat × Entry)) (depth : Nat) :
    pendingWeight (descendChildren nodes depth) = nodesWeight nodes := by
  rw [← childrenDirs_weight nodes]
  simp only [pendingWeight, descendChildren, List.map_map]
  rfl

theorem pendingWeight_append (l1 l2 : List Visited) :
    pendingWeight (l1 ++ l2) = pendingWeight l1 + pendingWeight l2 := by
  simp [pendingWeight]

theorem pendingWeight_reverse (l : List Visited) :
    pendingWeight l.reverse = pendingWeight l := by
  simp [pendingWeight, List.sum_reverse]

/-- Repeated calls of `PostOrderIterator::next_borrowed` (iter.rs lines
243-353) until the iterator is exhausted: the full output sequence of the
traversal together with the way it ended.  One recursive step processes one
popped frame, exactly as the source loop does. -/
def run (opts : TreeOptions) (fp : List Nat) (od : Nat) (buffer : List Nat)
    (table : CidTable) : List Visited → List TreeNode × Term
  | [] => ([], .finished)
  | v :: rest =>
    match update_full_path fp od (frameName v) (frameDepth v) with
    | none => ([], .panicked)
    | some fpod =>
      match v with
      | .Descent node nm dep =>
        run opts fpod.1 fpod.2 buffer table
          ((descendChildren node.nodes dep).reverse ++
            Visited.Post node.parent_id node.id nm dep (childrenLeaves node.nodes) :: rest)
      | .Post pid idv nm _ leaves =>
        match postStep opts table buffer fpod.1 pid idv nm leaves with
        | .finishEarly => ([], .finished)
        | .panic => ([], .panicked)
        | .fail e => ([], .failed e)
        | .emit node table2 buf2 =>
          let r := run opts fpod.1 fpod.2 buf2 table2 rest
          (node :: r.1, r.2)
termination_by pending => pendingWeight pending
decreasing_by
  · rw [pendingWeight_append, pendingWeight_reverse, descendChildren_weight]
    simp only [pendingWeight, List.map_cons, List.sum_cons, frameWeight, dirWeight_eq]
    omega
  · simp only [pendingWeight, List.map_cons, List.sum_cons, frameWeight]
    omega

/-- `PostOrderIterator::new(root, opts)` followed by full consumption of the
iterator. -/
def runIter (root : DirBuilder) (opts : TreeOptions) : List TreeNode × Term :=
  run opts [] 0 [] [] [Visited.Descent root none 0]

/-- The serialized bytes of one link field inside a directory message: the
tag-18 byte, the length varint, and the nested `EntryAsPBLink` message. -/
def link_field (kv : List Nat × Leaf) : List Nat :=
  [18] ++ leb128 (entry_get_size kv.1 kv.2) ++ entry_write_message kv.1 kv.2 []

/-- A one-entry sample mapping used to instantiate theorems on concrete
inputs. -/
def sample_links : BMap := [([97], { link := ⟨[1]⟩, total_size := 3 })]

/-- The Leaf a successful render of `sample_links` produces. -/
def sample_render_leaf : Leaf :=
  { link := Cid.new_v0 (multihash_wrap_sha256 (sha256 (dir_write_message sample_links [])))
  , total_size := (dir_get_size sample_links + sum_u64 sample_links) % U64 }

/-- A one-entry sample mapping of total size 1. -/
def sample_m1 : BMap := [([97], { link := ⟨[1]⟩, total_size := 1 })]

/-- A sample propagation table holding `sample_m1` under id 5. -/
def sample_table : CidTable := [(some 5, sample_m1)]

/-- The Leaf a successful render of `sample_m1` produces. -/
def sample_emit_leaf : Leaf :=
  { link := Cid.new_v0 (multihash_wrap_sha256 (sha256 (dir_write_message sample_m1 [])))
  , total_size := (dir_get_size sample_m1 + sum_u64 sample_m1) % U64 }

/-- Strict key order on map entries. -/
abbrev keyLt (a b : List Nat × Leaf) : Prop := lexLt a.1 b.1 = true

/-- An abstract path: the list of name segments from the root. -/
abbrev Addr := List (List Nat)

/-- The slash-joined byte string of an address, as the path tracker builds
it. -/
def joinPath : Addr → List Nat
  | [] => []
  | [s] => s
  | s :: s2 :: rest => s ++ 47 :: joinPath (s2 :: rest)

/-- Segment well-formedness: names are nonempty and contain no slash
byte. -/
def addrWF (a : Addr) : Prop := ∀ s ∈ a, s ≠ [] ∧ ¬ 47 ∈ s

/-- Address order: `x` is an ancestor of (or equal to) `y`. -/
def addrLe (x y : Addr) : Prop := ∃ t, x ++ t = y

/-- Address order: `x` is a strict ancestor of `y`. -/
def addrLt (x y : Addr) : Prop := ∃ t, t ≠ [] ∧ x ++ t = y

/-- The path-ancestor relation on slash-joined byte paths: `q` lies strictly
below `p` in the emitted path hierarchy. -/
def descPath (p q : List Nat) : Prop :=
  (p = [] ∧ q ≠ []) ∨ ∃ t, q = p ++ 47 :: t

/-- The address a frame's path-tracker update produces, given the address
the tracker currently holds. -/
def frameAddr (a : Addr) : Option (List Nat) → Nat → Addr
  | none, _ => []
  | some n, depth => if depth ≤ 1 then [n] else a.take (depth - 1) ++ [n]

/-- The conditions under which a frame's depth and name are consistent with
the tracker holding address `a` (so that `update_full_path` succeeds). -/
def fitsB (a : Addr) : Option (List Nat) → Nat → Prop
  | none, depth => depth = 0
  | some _, depth => 1 ≤ depth ∧ depth - 1 ≤ a.length

/-- Well-formedness of an optional frame name. -/
def nameWF : Option (List Nat) → Prop
  | none => True
  | some n => n ≠ [] ∧ ¬ 47 ∈ n

/-- Well-formedness of a frame's payload. -/
def frameWF : Visited → Prop
  | .Descent node _ _ => wfDir node = true
  | .Post _ _ _ _ _ => True

mutual
/-- The addresses of the nodes the machine will emit for the subtree of a
directory placed at address `a`, in machine order: children in reverse map
order (the work stack reverses them), then the directory itself. -/
def postListA (a : Addr) (d : DirBuilder) : List Addr :=
  match d with
  | .mk _ _ nodes => postNodes a nodes ++ [a]
termination_by sizeOf d

/-- The addresses emitted for the directory children of a child list. -/
def postNodes (a : Addr) (nodes : List (List Nat × Entry)) : List Addr :=
  match nodes with
  | [] => []
  | (k, e) :: rest =>
    postNodes a rest ++ (match h : e with
      | .directory d => postListA (a ++ [k]) d
      | .leaf _ => [])
termination_by sizeOf nodes
decreasing_by
  · simp_wf
  · simp_wf
    have h2 := congrArg sizeOf h
    simp at h2
    omega
end

/-- The addresses a single pending frame will emit. -/
def frameEmits (a : Addr) : Visited → List Addr
  | .Descent node nm dep => postListA (frameAddr a nm dep) node
  | .Post _ _ nm dep _ => [frameAddr a nm dep]

/-- The addresses the whole pending stack will emit, threading the tracker
address through the frames. -/
def pendAddrs : List Visited → Addr → List Addr
  | [], _ => []
  | f :: rest, a =>
    frameEmits a f ++ pendAddrs rest (frameAddr a (frameName f) (frameDepth f))

/-- The tracker address after a list of frames has been fully processed. -/
def endAddr : List Visited → Addr → Addr
  | [], a => a
  | f :: rest, a => endAddr rest (frameAddr a (frameName f) (frameDepth f))

/-- Consistency of a pending stack with the tracker holding address `a`:
every frame fits the address left behind by the frames above it, and all
frames are well-formed. -/
inductive PendOK : List Visited → Addr → Prop
  | nil (a : Addr) : PendOK [] a
  | cons {f : Visited} {rest : List Visited} {a : Addr} :
      fitsB a (frameName f) (frameDepth f) →
      nameWF (frameName f) →
      frameWF f →
      PendOK rest (frameAddr a (frameName f) (frameDepth f)) →
      PendOK (f :: rest) a

theorem leb128_small {v : Nat} (h : v < 128) : leb128 v = [v] := by
  cases v with
  | zero => rfl
  | succ n => simp [leb128, leb128F, h]

theorem entry_write_message_eq (k : List Nat) (l : Leaf) (w : List Nat) :
    entry_write_message k l w =
      w ++ [10] ++ leb128 l.link.to_bytes.length ++ l.link.to_bytes
        ++ [18] ++ leb128 k.length ++ k
        ++ [24] ++ leb128 (l.total_size % U64) := by
  have h10 : leb128 10 = [10] := by decide
  have h18 : leb128 18 = [18] := by decide
  have h24 : leb128 24 = [24] := by decide
  simp [entry_write_message, write_bytes, write_varint, write_uint64, h10, h18, h24,
    List.append_assoc]

theorem entry_write_message_append (k : List Nat) (l : Leaf) (w : List Nat) :
    entry_write_message k l w = w ++ entry_write_message k l [] := by
  rw [entry_write_message_eq, entry_write_message_eq]
  simp [List.append_assoc]

theorem entry_write_message_length (k : List Nat) (l : Leaf) (w : List Nat) :
    (entry_write_message k l w).length = w.length + entry_get_size k l := by
  rw [entry_write_message_eq]
  simp [entry_get_size, sizeof_len, sizeof_varint]
  omega

theorem dir_write_message_eq (links : BMap) (w : List Nat) :
    dir_write_message links w =
      w ++ (links.map link_field).flatten
        ++ [10] ++ leb128 unixfs_directory_size ++ unixfs_directory_bytes := by
  have h10 : leb128 10 = [10] := by decide
  have h18 : leb128 18 = [18] := by decide
  suffices h : ∀ (ls : BMap) (w : List Nat),
      ls.foldl
        (fun acc kv =>
          entry_write_message kv.1 kv.2 (write_varint (write_varint acc 18) (entry_get_size kv.1 kv.2)))
        w = w ++ (ls.map link_field).flatten by
    simp only [dir_write_message]
    rw [h]
    simp [write_varint, h10, List.append_assoc]
  intro ls
  induction ls with
  | nil => intro w; simp
  | cons kv rest ih =>
    intro w
    simp only [List.foldl_cons, List.map_cons, List.flatten_cons]
    rw [ih]
    rw [entry_write_message_append]
    simp [write_varint, h18, link_field, List.append_assoc]

theorem dir_write_message_length (links : BMap) (w : List Nat) :
    (dir_write_message links w).length = w.length + dir_get_size links := by
  rw [dir_write_message_eq]
  simp only [dir_get_size, List.length_append, List.length_flatten, List.map_map]
  have h : ∀ kv : List Nat × Leaf,
      (link_field kv).length = 1 + sizeof_len (entry_get_size kv.1 kv.2) := by
    intro kv
    simp [link_field, sizeof_len, sizeof_varint, entry_write_message_length]
    omega
  have h2 : (links.map (List.length ∘ link_field)) =
      links.map (fun kv => 1 + sizeof_len (entry_get_size kv.1 kv.2)) := by
    refine List.map_congr_left ?_
    intro kv _
    exact h kv
  rw [h2]
  simp [sizeof_len, sizeof_varint, unixfs_directory_size]
  omega

theorem sum_u64_eq (links : BMap) :
    sum_u64 links = (links.map (fun kv => kv.2.total_size)).sum % U64 := by
  suffices h : ∀ (ls : BMap) (a : Nat),
      ls.foldl (fun a kv => (a + kv.2.total_size) % U64) (a % U64)
        = (a + (ls.map (fun kv => kv.2.total_size)).sum) % U64 by
    have := h links 0
    simpa [sum_u64] using this
  intro ls
  induction ls with
  | nil => intro a; simp
  | cons kv rest ih =>
    intro a
    simp only [List.foldl_cons, List.map_cons, List.sum_cons]
    rw [Nat.mod_add_mod, ih]
    ring_nf

/-- When the exact serialized size does not exceed a configured limit, the
render succeeds and is fully determined by the link mapping: the resulting
buffer is exactly the encoded message. -/
theorem render_directory_ok (links : BMap) (buffer : List Nat) (limit : Option Nat)
    (h : ∀ l, limit = some l → dir_get_size links ≤ l) :
    render_directory links buffer limit =
      (.ok { link := Cid.new_v0 (multihash_wrap_sha256 (sha256 (dir_write_message links [])))
           , total_size := (dir_get_size links + sum_u64 links) % U64 },
       dir_write_message links []) := by
  have hfits : (limit.all (fun l => decide (dir_get_size links ≤ l))) = true := by
    cases limit with
    | none => rfl
    | some l => simpa using h l rfl
  have hwlen : (dir_write_message links []).length = dir_get_size links := by
    simpa using dir_write_message_length links []
  have hb1len : (buffer ++ List.replicate (dir_get_size links - buffer.length) 0).length
      = max (dir_get_size links) buffer.length := by
    simp
    omega
  have hle : (dir_write_message links []).length
      ≤ (buffer ++ List.replicate (dir_get_size links - buffer.length) 0).length := by
    rw [hwlen, hb1len]
    omega
  simp only [render_directory, hfits, if_true, hle, if_pos]
  have htake : ((dir_write_message links [])
      ++ (buffer ++ List.replicate (dir_get_size links - buffer.length) 0).drop
          (dir_write_message links []).length).take (dir_get_size links)
      = dir_write_message links [] := by
    rw [← hwlen]
    exact List.take_left _ _
  rw [htake, hwlen]

example :
    (render_directory [] [] none).2 = [10, 2, 8, 1] := by decide

/-- When a configured limit is strictly exceeded by the exact serialized
size, the render fails with `TooLargeBlock` carrying that size and the
buffer is returned untouched. -/
theorem render_directory_err (links : BMap) (buffer : List Nat) {lim : Nat}
    (h : lim < dir_get_size links) :
    render_directory links buffer (some lim) =
      (.error (.TooLargeBlock (dir_get_size links)), buffer) := by
  have hfits : (Option.all (fun l => decide (dir_get_size links ≤ l)) (some lim)) = false := by
    simp
    omega
  simp only [render_directory]
  rw [hfits]
  simp

/-- C3: for every sorted name-to-Leaf mapping, a successful render returns a
Leaf whose cumulative size is exactly the byte length of the directory's own
encoding plus the sum of the cumulative sizes of all entries of the mapping
(stated under the no-`u64`-overflow side condition of the machine
arithmetic). -/
theorem C3_cumulative_size_exact (links : BMap) (buffer : List Nat) (limit : Option Nat)
    (leaf : Leaf) (buf2 : List Nat)
    (hok : render_directory links buffer limit = (.ok leaf, buf2))
    (hfit : dir_get_size links + ((links.map fun kv => kv.2.total_size).sum) < U64) :
    leaf.total_size
      = (dir_write_message links []).length + ((links.map fun kv => kv.2.total_size).sum) := by
  have hfits : ∀ l, limit = some l → dir_get_size links ≤ l := by
    intro l hl
    subst hl
    by_contra hcon
    push_neg at hcon
    rw [render_directory_err links buffer hcon] at hok
    simp at hok
  rw [render_directory_ok links buffer limit hfits] at hok
  simp only [Prod.mk.injEq, Except.ok.injEq] at hok
  obtain ⟨h1, _⟩ := hok
  rw [← h1]
  simp only [sum_u64_eq, dir_write_message_length, List.length_nil]
  have hsum : ((links.map fun kv => kv.2.total_size).sum) % U64
      = (links.map fun kv => kv.2.total_size).sum := by
    apply Nat.mod_eq_of_lt
    omega
  rw [hsum, Nat.mod_eq_of_lt hfit]
  omega

/-- C4: the render fails with a size-limit error exactly when a limit is
supplied and the exact serialized size strictly exceeds it; every failure is
that error, it reports the offending size, and the buffer is returned
unchanged. -/
theorem C4_size_limit_error_iff (links : BMap) (buffer : List Nat) (limit : Option Nat) :
    ((∃ s, (render_directory links buffer limit).1
        = .error (.TooLargeBlock s)) ↔
      ∃ lim, limit = some lim ∧ lim < dir_get_size links)
    ∧ (∀ e, (render_directory links buffer limit).1 = .error e →
        e = .TooLargeBlock (dir_get_size links)
          ∧ (render_directory links buffer limit).2 = buffer) := by
  by_cases h : ∀ l, limit = some l → dir_get_size links ≤ l
  · rw [render_directory_ok links buffer limit h]
    constructor
    · constructor
      · rintro ⟨s, hs⟩
        simp at hs
      · rintro ⟨lim, hlim, hlt⟩
        exact absurd (h lim hlim) (by omega)
    · intro e he
      simp at he
  · push_neg at h
    obtain ⟨lim, hlim, hlt⟩ := h
    subst hlim
    rw [render_directory_err links buffer (by omega)]
    refine ⟨⟨fun _ => ⟨lim, rfl, by omega⟩, fun _ => ⟨dir_get_size links, rfl⟩⟩, ?_⟩
    intro e he
    simp at he
    subst he
    exact ⟨rfl, rfl⟩

/-- C10: the render result is a function of the mapping and the size limit
alone; the initial contents and length of the scratch buffer influence
neither the returned value nor (on success) the final buffer contents. -/
theorem C10_render_buffer_independent (links : BMap) (limit : Option Nat)
    (b1 b2 : List Nat) :
    (render_directory links b1 limit).1 = (render_directory links b2 limit).1
    ∧ ((render_directory links b1 limit).1.isOk = true →
        (render_directory links b1 limit).2 = (render_directory links b2 limit).2) := by
  by_cases h : ∀ l, limit = some l → dir_get_size links ≤ l
  · rw [render_directory_ok links b1 limit h, render_directory_ok links b2 limit h]
    exact ⟨rfl, fun _ => rfl⟩
  · push_neg at h
    obtain ⟨lim, hlim, hlt⟩ := h
    subst hlim
    rw [render_directory_err links b1 (by omega), render_directory_err links b2 (by omega)]
    constructor
    · rfl
    · intro hok
      simp [Except.isOk, Except.toBool] at hok

/-- C6: in every serialized link entry the child's content identifier is
embedded as its native `to_bytes` encoding, verbatim, as one single
length-delimited opaque byte string (tag 10), never decomposed into
version/codec/hash fields; and inside any rendered directory every link
entry carries that same opaque field. -/
theorem C6_cid_embedded_verbatim (k : List Nat) (l : Leaf) (w : List Nat) :
    entry_write_message k l w =
      w ++ [10] ++ leb128 l.link.to_bytes.length ++ l.link.to_bytes
        ++ [18] ++ leb128 k.length ++ k ++ [24] ++ leb128 (l.total_size % U64)
    ∧ (∀ links : BMap, (k, l) ∈ links → ∃ pre post,
        dir_write_message links w
          = pre ++ ([10] ++ leb128 l.link.to_bytes.length ++ l.link.to_bytes) ++ post) := by
  refine ⟨entry_write_message_eq k l w, ?_⟩
  intro links hmem
  obtain ⟨s, t, rfl⟩ := List.append_of_mem hmem
  refine ⟨w ++ (s.map link_field).flatten ++ ([18] ++ leb128 (entry_get_size k l)),
    ([18] ++ leb128 k.length ++ k ++ [24] ++ leb128 (l.total_size % U64))
      ++ ((t.map link_field).flatten
        ++ ([10] ++ leb128 unixfs_directory_size ++ unixfs_directory_bytes)), ?_⟩
  rw [dir_write_message_eq]
  simp only [List.map_append, List.map_cons, List.flatten_append, List.flatten_cons,
    link_field, entry_write_message_eq, List.nil_append]
  simp [List.append_assoc]

theorem lexLt_irrefl (a : List Nat) : lexLt a a = false := by
  induction a with
  | nil => rfl
  | cons x xs ih => simp [lexLt, ih]

theorem eq_of_lexLt_false {a b : List Nat} (h1 : lexLt a b = false)
    (h2 : lexLt b a = false) : a = b := by
  induction a generalizing b with
  | nil =>
    cases b with
    | nil => rfl
    | cons y ys => simp [lexLt] at h1
  | cons x xs ih =>
    cases b with
    | nil => simp [lexLt] at h2
    | cons y ys =>
      by_cases hxy : x < y
      · simp [lexLt, hxy] at h1
      · by_cases hyx : y < x
        · simp [lexLt, hyx] at h2
        · have hx : x = y := by omega
          subst hx
          simp only [lexLt, if_neg hxy] at h1 h2
          rw [ih h1 h2]

theorem lexLt_trans {a b c : List Nat} (h1 : lexLt a b = true)
    (h2 : lexLt b c = true) : lexLt a c = true := by
  induction a generalizing b c with
  | nil =>
    cases b with
    | nil => simp [lexLt] at h1
    | cons y ys =>
      cases c with
      | nil => simp [lexLt] at h2
      | cons z zs => simp [lexLt]
  | cons x xs ih =>
    cases b with
    | nil => simp [lexLt] at h1
    | cons y ys =>
      cases c with
      | nil => simp [lexLt] at h2
      | cons z zs =>
        by_cases hxy : x < y
        · by_cases hyz : y < z
          · simp [lexLt]
            omega
          · by_cases hzy : z < y
            · simp [lexLt, hzy] at h2
              omega
            · have : y = z := by omega
              subst this
              simp [lexLt, hxy]
        · by_cases hyx : y < x
          · simp [lexLt, hxy, hyx] at h1
          · have : x = y := by omega
            subst this
            simp only [lexLt, if_neg hxy] at h1
            by_cases hxz : x < z
            · simp [lexLt, hxz]
            · by_cases hzx : z < x
              · simp [lexLt, hzx] at h2
                omega
              · have : x = z := by omega
                subst this
                simp only [lexLt, if_neg hxz] at h2 ⊢
                exact ih h1 h2

theorem bInsert_mem {k : List Nat} {v : Leaf} :
    ∀ {m : BMap} {x}, x ∈ (bInsert k v m).2 → x = (k, v) ∨ x ∈ m := by
  intro m
  induction m with
  | nil =>
    intro x hx
    simp [bInsert] at hx
    left
    exact hx
  | cons kv2 rest ih =>
    intro x hx
    obtain ⟨k2, v2⟩ := kv2
    by_cases h1 : lexLt k k2 = true
    · simp only [bInsert, if_pos h1, List.mem_cons] at hx
      rcases hx with h | h | h
      · left; exact h
      · right; simp [h]
      · right; exact List.mem_cons_of_mem _ h
    · by_cases h2 : lexLt k2 k = true
      · simp only [bInsert, if_neg h1, if_pos h2, List.mem_cons] at hx
        rcases hx with h | h
        · right; simp [h]
        · rcases ih h with h3 | h3
          · left; exact h3
          · right; exact List.mem_cons_of_mem _ h3
      · simp only [bInsert, if_neg h1, if_neg h2, List.mem_cons] at hx
        rcases hx with h | h
        · left; exact h
        · right; exact List.mem_cons_of_mem _ h

theorem bInsert_pairwise {k : List Nat} {v : Leaf} :
    ∀ {m : BMap}, m.Pairwise keyLt → ((bInsert k v m).2).Pairwise keyLt := by
  intro m
  induction m with
  | nil =>
    intro _
    simp [bInsert, keyLt]
  | cons kv2 rest ih =>
    intro h
    obtain ⟨k2, v2⟩ := kv2
    obtain ⟨hhead, htail⟩ := List.pairwise_cons.mp h
    by_cases h1 : lexLt k k2 = true
    · simp only [bInsert, if_pos h1]
      refine List.pairwise_cons.mpr ⟨?_, h⟩
      intro x hx
      rcases List.mem_cons.mp hx with h3 | h3
      · subst h3
        exact h1
      · exact lexLt_trans h1 (hhead x h3)
    · by_cases h2 : lexLt k2 k = true
      · simp only [bInsert, if_neg h1, if_pos h2]
        refine List.pairwise_cons.mpr ⟨?_, ih htail⟩
        intro x hx
        rcases bInsert_mem hx with h3 | h3
        · subst h3
          exact h2
        · exact hhead x h3
      · have hk : k = k2 := eq_of_lexLt_false (by simpa using h1) (by simpa using h2)
        subst hk
        simp only [bInsert, if_neg h1, if_neg h2]
        refine List.pairwise_cons.mpr ⟨?_, htail⟩
        intro x hx
        exact hhead x hx

theorem bExtend_pairwise (kvs : List (List Nat × Leaf)) :
    ∀ {m : BMap}, m.Pairwise keyLt → (bExtend m kvs).Pairwise keyLt := by
  induction kvs with
  | nil =>
    intro m h
    exact h
  | cons kv rest ih =>
    intro m h
    simp only [bExtend, List.foldl_cons]
    exact ih (bInsert_pairwise h)

/-- C7: for any sequence of insertions used to build the mapping, in any
order, the rendered directory bytes consist of the link fields in the map's
iteration order — whose child names are strictly ascending in byte-wise
lexicographic order — followed by exactly one metadata field marking the
node as a directory type. -/
theorem C7_links_sorted_and_single_type_field (ins : List (List Nat × Leaf)) (w : List Nat) :
    dir_write_message (bExtend [] ins) w
      = w ++ ((bExtend [] ins).map link_field).flatten
        ++ [10] ++ leb128 unixfs_directory_size ++ unixfs_directory_bytes
    ∧ ((bExtend [] ins).map (fun kv => kv.1)).Pairwise (fun a b => lexLt a b = true) := by
  constructor
  · exact dir_write_message_eq (bExtend [] ins) w
  · have h := bExtend_pairwise ins (show ([] : BMap).Pairwise keyLt by simp)
    exact (List.pairwise_map).mpr h

theorem bLookup_eq_none_of {k : List Nat} :
    ∀ {m : BMap}, (∀ x ∈ m, k ≠ x.1) → bLookup k m = none := by
  intro m
  induction m with
  | nil => intro _; rfl
  | cons kv2 rest ih =>
    intro h
    obtain ⟨k2, v2⟩ := kv2
    have hne : k2 ≠ k := fun he => (h (k2, v2) (by simp)) he.symm
    simp only [bLookup, if_neg hne]
    exact ih (fun x hx => h x (List.mem_cons_of_mem _ hx))

theorem ne_of_lexLt {a b : List Nat} (h : lexLt a b = true) : a ≠ b := by
  intro he
  subst he
  rw [lexLt_irrefl] at h
  exact absurd h (by simp)

theorem bInsert_fst_eq_lookup {k : List Nat} {v : Leaf} :
    ∀ {m : BMap}, m.Pairwise keyLt → (bInsert k v m).1 = bLookup k m := by
  intro m
  induction m with
  | nil => intro _; rfl
  | cons kv2 rest ih =>
    intro h
    obtain ⟨k2, v2⟩ := kv2
    obtain ⟨hhead, htail⟩ := List.pairwise_cons.mp h
    by_cases h1 : lexLt k k2 = true
    · simp only [bInsert, if_pos h1]
      have hne : k2 ≠ k := (ne_of_lexLt h1).symm
      rw [bLookup, if_neg hne, bLookup_eq_none_of]
      intro x hx
      exact ne_of_lexLt (lexLt_trans h1 (hhead x hx))
    · by_cases h2 : lexLt k2 k = true
      · simp only [bInsert, if_neg h1, if_pos h2]
        have hne : k2 ≠ k := ne_of_lexLt h2
        rw [bLookup, if_neg hne]
        exact ih htail
      · have hk : k = k2 := eq_of_lexLt_false (by simpa using h1) (by simpa using h2)
        subst hk
        simp [bInsert, if_neg h1, if_neg h2, bLookup]

theorem bInsert_lookup_self (k : List Nat) (v : Leaf) :
    ∀ (m : BMap), bLookup k (bInsert k v m).2 = some v := by
  intro m
  induction m with
  | nil => simp [bInsert, bLookup]
  | cons kv2 rest ih =>
    obtain ⟨k2, v2⟩ := kv2
    by_cases h1 : lexLt k k2 = true
    · simp [bInsert, if_pos h1, bLookup]
    · by_cases h2 : lexLt k2 k = true
      · have hne : k2 ≠ k := ne_of_lexLt h2
        simp only [bInsert, if_neg h1, if_pos h2]
        rw [bLookup, if_neg hne]
        exact ih
      · simp [bInsert, if_neg h1, if_neg h2, bLookup]

theorem hmLookup_none_of_not_mem {k : Option Nat} :
    ∀ {t : CidTable}, ¬ k ∈ t.map (fun kv => kv.1) → hmLookup k t = none := by
  intro t
  induction t with
  | nil => intro _; rfl
  | cons kv rest ih =>
    intro h
    obtain ⟨k2, v2⟩ := kv
    simp only [List.map_cons, List.mem_cons] at h
    push_neg at h
    have hne : ¬ k2 = k := by
      intro he
      exact h.1 he.symm
    simp only [hmLookup, if_neg hne]
    exact ih h.2

theorem hmLookup_hmRemove_self {k : Option Nat} :
    ∀ {t : CidTable}, (t.map (fun kv => kv.1)).Nodup → hmLookup k (hmRemove k t).2 = none := by
  intro t
  induction t with
  | nil => intro _; rfl
  | cons kv rest ih =>
    intro h
    obtain ⟨k2, v2⟩ := kv
    simp only [List.map_cons, List.nodup_cons] at h
    by_cases he : k2 = k
    · subst he
      simp only [hmRemove, if_pos rfl]
      exact hmLookup_none_of_not_mem h.1
    · simp only [hmRemove, if_neg he]
      simp only [hmLookup, if_neg he]
      exact ih h.2

theorem hmLookup_hmSet_other {k k2 : Option Nat} (hne : k ≠ k2) (v : BMap) :
    ∀ (t : CidTable), hmLookup k (hmSet k2 v t) = hmLookup k t := by
  intro t
  induction t with
  | nil =>
    have hne2 : ¬ k2 = k := by
      intro he
      exact hne he.symm
    simp [hmSet, hmLookup, hne2]
  | cons kv3 rest ih =>
    obtain ⟨k3, v3⟩ := kv3
    by_cases he : k3 = k2
    · subst he
      simp only [hmSet, if_pos rfl]
      have h1 : ¬ k3 = k := fun hx => hne hx.symm
      simp only [hmLookup, if_neg h1]
    · simp only [hmSet, if_neg he]
      by_cases he2 : k3 = k
      · simp [hmLookup, if_pos he2]
      · simp only [hmLookup, if_neg he2]
        exact ih

/-- When wrapping is disabled and the frame's parent is absent, the
finalize step only checks the arity of the merged mapping. -/
theorem postStep_unwrap_root (opts : TreeOptions) (table : CidTable) (buffer fp : List Nat)
    (idv : Nat) (name : Option (List Nat)) (leaves : List (List Nat × Leaf))
    (hwrap : opts.wrap_with_directory = false) :
    postStep opts table buffer fp none idv name leaves =
      if (bExtend ((hmRemove (some idv) table).1.getD []) leaves).length = 1
      then .finishEarly else .panic := by
  simp [postStep, hwrap]

/-- C2: with wrapping disabled, a finalize frame whose parent is absent
requires the merged mapping to hold exactly one entry (anything else is an
assert-level abort), and the engine then ends the whole traversal at once,
emitting no node for the synthetic root. -/
theorem C2_single_root_unwrap (opts : TreeOptions) (fp : List Nat) (od : Nat)
    (buffer : List Nat) (table : CidTable) (idv : Nat) (nm : Option (List Nat)) (dep : Nat)
    (leaves : List (List Nat × Leaf)) (rest : List Visited) (fpod : List Nat × Nat)
    (hwrap : opts.wrap_with_directory = false)
    (hup : update_full_path fp od nm dep = some fpod) :
    ((bExtend ((hmRemove (some idv) table).1.getD []) leaves).length = 1 →
      run opts fp od buffer table (Visited.Post none idv nm dep leaves :: rest)
        = ([], .finished))
    ∧ ((bExtend ((hmRemove (some idv) table).1.getD []) leaves).length ≠ 1 →
      run opts fp od buffer table (Visited.Post none idv nm dep leaves :: rest)
        = ([], .panicked)) := by
  have hps := postStep_unwrap_root opts table buffer fpod.1 idv nm leaves hwrap
  constructor
  · intro h
    rw [if_pos h] at hps
    simp only [run, frameName, frameDepth, hup, hps]
  · intro h
    rw [if_neg h] at hps
    simp only [run, frameName, frameDepth, hup, hps]

/-- C9: a successful finalize step for directory id X leaves no propagation
table entry keyed by X: the entry is moved out at the start, and the result
is deposited only under the parent id (distinct from X for every reachable
frame, since ids are unique).  Table keys are unique, the `HashMap`
invariant. -/
theorem C9_no_self_entry_after_finalize (opts : TreeOptions) (table : CidTable)
    (buffer fp : List Nat) (pid : Option Nat) (idv : Nat) (name : Option (List Nat))
    (leaves : List (List Nat × Leaf)) (node : TreeNode) (table2 : CidTable)
    (buf2 : List Nat)
    (hkeys : (table.map (fun kv => kv.1)).Nodup)
    (hpid : pid ≠ some idv)
    (hstep : postStep opts table buffer fp pid idv name leaves = .emit node table2 buf2) :
    hmLookup (some idv) table2 = none := by
  simp only [postStep] at hstep
  split at hstep
  · split at hstep <;> simp at hstep
  · split at hstep
    · simp at hstep
    · rename_i heq
      split at hstep
      · split at hstep
        · simp at hstep
        · simp only [PostOut.emit.injEq] at hstep
          obtain ⟨_, ht, _⟩ := hstep
          rw [← ht]
          simp only [depositResult]
          rw [hmLookup_hmSet_other (fun he => hpid he.symm)]
          exact hmLookup_hmRemove_self hkeys
      · simp only [PostOut.emit.injEq] at hstep
        obtain ⟨_, ht, _⟩ := hstep
        rw [← ht]
        exact hmLookup_hmRemove_self hkeys

/-- C1 counterexample: a finalize step whose descend-time leaves duplicate a
name already present in the collected directory results neither asserts nor
aborts: the merge silently overwrites the collected entry with the
descend-time leaf (`BTreeMap::extend` semantics, iter.rs line 299), and the
step completes without a panic. -/
theorem C1_counterexample :
    bExtend [([97], ⟨⟨[1]⟩, 1⟩)] [([97], ⟨⟨[2]⟩, 2⟩)] = [([97], (⟨⟨[2]⟩, 2⟩ : Leaf))]
    ∧ postStep ⟨true, none⟩ [(some 5, [([97], ⟨⟨[1]⟩, 1⟩)])] [] [] none 5 none
        [([97], ⟨⟨[2]⟩, 2⟩)] ≠ PostOut.panic := by
  refine ⟨by decide, by decide⟩

/-- C1 amended: the descend-time merge silently overwrites on duplicate
names — the later binding of a name wins and no failure is raised; a
finalize step aborts only for the unwrapped-root arity check or when the
rendered result collides with an existing name under the parent's table
entry, where the collision does abort. -/
theorem C1_merge_overwrites_only_deposit_asserts :
    (∀ (m : BMap) (k : List Nat) (v : Leaf), bLookup k (bExtend m [(k, v)]) = some v)
    ∧ (∀ opts table buffer fp pid idv name leaves,
        postStep opts table buffer fp pid idv name leaves = PostOut.panic →
          (opts.wrap_with_directory = false ∧ pid = none
              ∧ (bExtend ((hmRemove (some idv) table).1.getD []) leaves).length ≠ 1)
          ∨ (∃ n leaf2, name = some n ∧
              (depositResult (hmRemove (some idv) table).2 pid n leaf2).1.isSome = true))
    ∧ (∀ opts table buffer fp (pid : Option Nat) idv (n : List Nat) leaves (x : Leaf),
        opts.block_size_limit = none →
        (opts.wrap_with_directory = true ∨ pid ≠ none) →
        bLookup n ((hmLookup pid (hmRemove (some idv) table).2).getD []) = some x →
        ((hmLookup pid (hmRemove (some idv) table).2).getD []).Pairwise keyLt →
        postStep opts table buffer fp pid idv (some n) leaves = PostOut.panic) := by
  refine ⟨?_, ?_, ?_⟩
  · intro m k v
    simp only [bExtend, List.foldl_cons, List.foldl_nil]
    exact bInsert_lookup_self k v m
  · intro opts table buffer fp pid idv name leaves hstep
    simp only [postStep] at hstep
    split at hstep
    · rename_i hcond
      split at hstep
      · simp at hstep
      · rename_i hlen
        exact Or.inl ⟨hcond.1, hcond.2, hlen⟩
    · split at hstep
      · simp at hstep
      · rename_i leaf buf2 heq
        split at hstep
        · rename_i n
          split at hstep
          · rename_i hsome
            exact Or.inr ⟨n, leaf, rfl, hsome⟩
          · simp at hstep
        · simp at hstep
  · intro opts table buffer fp pid idv n leaves x hlim hcase hlook hsort
    have hcond : ¬ (opts.wrap_with_directory = false ∧ pid = none) := by
      rcases hcase with h | h
      · intro hc
        rw [h] at hc
        exact absurd hc.1 (by simp)
      · intro hc
        exact h hc.2
    simp only [postStep, if_neg hcond, hlim]
    rw [render_directory_ok _ buffer none (by intro l hl; exact absurd hl (by simp))]
    simp only [depositResult]
    rw [bInsert_fst_eq_lookup hsort, hlook]
    simp

theorem joinPath_append_single (b : Addr) (s : List Nat) (hb : b ≠ []) :
    joinPath (b ++ [s]) = joinPath b ++ 47 :: s := by
  induction b with
  | nil => exact absurd rfl hb
  | cons x r ih =>
    cases r with
    | nil => rfl
    | cons y r2 =>
      have h2 := ih (List.cons_ne_nil y r2)
      simp only [List.cons_append] at h2
      show x ++ 47 :: joinPath (y :: (r2 ++ [s])) = (x ++ 47 :: joinPath (y :: r2)) ++ 47 :: s
      rw [h2]
      simp [List.append_assoc]

theorem rposSlash_none (s : List Nat) (hs : ¬ 47 ∈ s) : rposSlash s = none := by
  induction s with
  | nil => rfl
  | cons b rest ih =>
    simp only [List.mem_cons] at hs
    push_neg at hs
    have h1 : rposSlash rest = none := ih hs.2
    have h2 : (b == 47) = false := by
      simp only [beq_eq_false_iff_ne, ne_eq]
      intro he
      exact hs.1 he.symm
    simp [rposSlash, h1, h2]

theorem rposSlash_append (w s : List Nat) (hs : ¬ 47 ∈ s) :
    rposSlash (w ++ 47 :: s) = some w.length := by
  induction w with
  | nil =>
    simp [rposSlash, rposSlash_none s hs]
  | cons b w2 ih =>
    have ih2 : rposSlash (List.append w2 (47 :: s)) = some w2.length := ih
    simp only [List.cons_append, rposSlash, ih2]
    rfl

theorem popLoop_join (depth : Nat) :
    ∀ (a : Addr), 2 ≤ depth → depth - 1 ≤ a.length → (∀ s ∈ a, ¬ 47 ∈ s) →
      popLoop (joinPath a) a.length depth
        = some (joinPath (a.take (depth - 1)), depth - 1) := by
  intro a
  induction a using List.reverseRecOn with
  | nil =>
    intro h2 hlen _
    simp at hlen
    omega
  | append_singleton b s ih =>
    intro h2 hlen hwf
    have hlen3 : (b ++ [s]).length = b.length + 1 := by simp
    by_cases hstop : b.length + 1 ≤ depth - 1
    · have hlen2 : b.length + 1 = depth - 1 := by
        simp at hlen
        omega
      have hlt : ¬ depth ≤ b.length + 1 := by omega
      rw [hlen3]
      simp only [popLoop, if_neg hlt]
      rw [List.take_of_length_le (by simp; omega), hlen2]
    · have hb : b ≠ [] := by
        intro he
        subst he
        simp at hstop
        omega
      have hjoin : joinPath (b ++ [s]) = joinPath b ++ 47 :: s :=
        joinPath_append_single b s hb
      have hle : depth ≤ b.length + 1 := by omega
      have hrpos : rposSlash (joinPath (b ++ [s])) = some (joinPath b).length := by
        rw [hjoin]
        exact rposSlash_append _ _ (hwf s (by simp))
      rw [hlen3]
      simp only [popLoop, if_pos hle, hrpos]
      have htake : (joinPath (b ++ [s])).take (joinPath b).length = joinPath b := by
        rw [hjoin]
        exact List.take_left _ _
      rw [htake]
      have hih := ih h2 (by omega) (fun x hx => hwf x (List.mem_append_left _ hx))
      rw [hih]
      rw [List.take_append_of_le_length (by omega)]

/-- C8: the path tracker resets for depths 0 and 1 before applying the name;
for depth at least 2 it pops the last slash-delimited segment while the
tracked depth is at least the target (landing exactly on the
(depth-1)-segment ancestor for well-formed paths); a present name is
appended after a separating slash unless the path is empty and bumps the
depth; and whenever the update returns, the tracked depth equals the
requested depth exactly. -/
theorem C8_update_full_path_contract :
    (∀ (fp : List Nat) (od : Nat) (name : Option (List Nat)) (depth : Nat), depth < 2 →
        update_full_path fp od name depth = update_full_path [] 0 name depth)
    ∧ (∀ (a : Addr) (depth : Nat), 2 ≤ depth → depth - 1 ≤ a.length →
        (∀ s ∈ a, ¬ 47 ∈ s) →
        popLoop (joinPath a) a.length depth
          = some (joinPath (a.take (depth - 1)), depth - 1))
    ∧ (∀ (fp : List Nat) (od : Nat) (n : List Nat) (depth : Nat) (p : List Nat) (d : Nat),
        update_full_path fp od (some n) depth = some (p, d) →
        ∃ base, (if depth < 2 then some (([] : List Nat), 0) else popLoop fp od depth)
            = some (base, depth - 1)
          ∧ p = (if base.isEmpty then base else base ++ [47]) ++ n ∧ d = depth)
    ∧ (∀ (fp : List Nat) (od : Nat) (name : Option (List Nat)) (depth : Nat)
        (p : List Nat) (d : Nat),
        update_full_path fp od name depth = some (p, d) → d = depth) := by
  refine ⟨?_, ?_, ?_, ?_⟩
  · intro fp od name depth hd
    simp only [update_full_path, if_pos hd]
  · intro a depth h2 hlen hwf
    exact popLoop_join depth a h2 hlen hwf
  · intro fp od n depth p d h
    simp only [update_full_path] at h
    split at h
    · exact absurd h (by simp)
    · rename_i fpod heq
      obtain ⟨b1, b2⟩ := fpod
      simp only at h
      split at h
      · rename_i hc
        simp only [Option.some.injEq, Prod.mk.injEq] at h
        obtain ⟨hp, hd⟩ := h
        refine ⟨b1, ?_, ?_, ?_⟩
        · rw [heq]
          have : b2 = depth - 1 := by omega
          rw [this]
        · exact hp.symm
        · omega
      · exact absurd h (by simp)
  · intro fp od name depth p d h
    simp only [update_full_path] at h
    split at h
    · exact absurd h (by simp)
    · rename_i fpod heq
      split at h
      · rename_i hc
        simp only [Option.some.injEq, Prod.mk.injEq] at h
        omega
      · exact absurd h (by simp)

theorem C8_witness :
    update_full_path [97, 47, 98] 2 (some [99]) 1 = update_full_path [] 0 (some [99]) 1
    ∧ popLoop (joinPath [[97], [98]]) ([[97], [98]] : Addr).length 2
        = some (joinPath (([[97], [98]] : Addr).take 1), 1)
    ∧ (∃ base, (if 2 < 2 then some (([] : List Nat), 0) else popLoop [97] 1 2)
        = some (base, 1)
        ∧ [97, 47, 98] = (if base.isEmpty then base else base ++ [47]) ++ [98] ∧ 2 = 2)
    ∧ 2 = 2 :=
  ⟨C8_update_full_path_contract.1 [97, 47, 98] 2 (some [99]) 1 (by decide),
   C8_update_full_path_contract.2.1 [[97], [98]] 2 (by decide) (by decide) (by decide),
   C8_update_full_path_contract.2.2.1 [97] 1 [98] 2 [97, 47, 98] 2 (by decide),
   C8_update_full_path_contract.2.2.2 [97] 1 (some [98]) 2 [97, 47, 98] 2 (by decide)⟩

theorem C3_witness :
    render_directory sample_links [7, 7] none
        = (.ok sample_render_leaf, dir_write_message sample_links [])
    ∧ dir_get_size sample_links
        + ((sample_links.map fun kv => kv.2.total_size).sum) < U64
    ∧ sample_render_leaf.total_size
        = (dir_write_message sample_links []).length
          + ((sample_links.map fun kv => kv.2.total_size).sum) :=
  ⟨by rfl, by decide,
    C3_cumulative_size_exact sample_links [7, 7] none sample_render_leaf
      (dir_write_message sample_links []) (by rfl) (by decide)⟩

theorem C4_witness :
    (render_directory [] [1, 2] (some 3)).1 = .error (.TooLargeBlock 4)
    ∧ (TreeConstructionFailed.TooLargeBlock 4
          = TreeConstructionFailed.TooLargeBlock (dir_get_size [])
        ∧ (render_directory [] [1, 2] (some 3)).2 = [1, 2]) :=
  ⟨by rfl, (C4_size_limit_error_iff [] [1, 2] (some 3)).2 (.TooLargeBlock 4) (by rfl)⟩

theorem C10_witness :
    (render_directory [] [] none).1.isOk = true
    ∧ (render_directory [] [] none).2 = (render_directory [] [9, 9, 9, 9, 9, 9] none).2 :=
  ⟨by decide, (C10_render_buffer_independent [] none [] [9, 9, 9, 9, 9, 9]).2 (by decide)⟩

theorem C6_witness :
    ([97], (⟨⟨[5, 6]⟩, 2⟩ : Leaf)) ∈ ([([97], ⟨⟨[5, 6]⟩, 2⟩)] : BMap)
    ∧ ∃ pre post, dir_write_message [([97], ⟨⟨[5, 6]⟩, 2⟩)] []
        = pre ++ ([10] ++ leb128 (Leaf.link (⟨⟨[5, 6]⟩, 2⟩ : Leaf)).to_bytes.length
            ++ (Leaf.link (⟨⟨[5, 6]⟩, 2⟩ : Leaf)).to_bytes) ++ post :=
  ⟨by decide,
    (C6_cid_embedded_verbatim [97] ⟨⟨[5, 6]⟩, 2⟩ []).2 [([97], ⟨⟨[5, 6]⟩, 2⟩)] (by decide)⟩

theorem C2_witness :
    (⟨false, none⟩ : TreeOptions).wrap_with_directory = false
    ∧ update_full_path [] 0 none 0 = some ([], 0)
    ∧ (bExtend ((hmRemove (some 0)
        [(some 0, [([97], (⟨⟨[1]⟩, 1⟩ : Leaf))])]).1.getD []) []).length = 1
    ∧ run ⟨false, none⟩ [] 0 [] [(some 0, [([97], ⟨⟨[1]⟩, 1⟩)])]
        [Visited.Post none 0 none 0 []] = ([], .finished) :=
  ⟨rfl, by decide, by decide,
    (C2_single_root_unwrap ⟨false, none⟩ [] 0 [] [(some 0, [([97], ⟨⟨[1]⟩, 1⟩)])] 0 none 0
      [] [] ([], 0) rfl (by decide)).1 (by decide)⟩

theorem C9_witness :
    ((sample_table.map (fun kv => kv.1)).Nodup)
    ∧ (none : Option Nat) ≠ some 5
    ∧ postStep ⟨true, none⟩ sample_table [] [] none 5 none []
        = .emit ⟨[], sample_emit_leaf.link, sample_emit_leaf.total_size,
            dir_write_message sample_m1 []⟩ [] (dir_write_message sample_m1 [])
    ∧ hmLookup (some 5) [] = none :=
  ⟨by decide, by decide, by rfl,
    C9_no_self_entry_after_finalize ⟨true, none⟩ sample_table [] [] none 5 none []
      ⟨[], sample_emit_leaf.link, sample_emit_leaf.total_size, dir_write_message sample_m1 []⟩
      [] (dir_write_message sample_m1 []) (by decide) (by decide) (by rfl)⟩

theorem joinPath_ne_nil {a : Addr} (h1 : a ≠ []) (h2 : ∀ s ∈ a, s ≠ []) :
    joinPath a ≠ [] := by
  cases a with
  | nil => exact absurd rfl h1
  | cons s r =>
    cases r with
    | nil => simpa [joinPath] using h2 s (by simp)
    | cons s2 r2 => simp [joinPath]

theorem frameAddr_length {a : Addr} {nm : Option (List Nat)} {depth : Nat}
    (hfit : fitsB a nm depth) : (frameAddr a nm depth).length = depth := by
  cases nm with
  | none =>
    have hd : depth = 0 := hfit
    simp [frameAddr, hd]
  | some n =>
    obtain ⟨h1, h2⟩ := hfit
    by_cases hd : depth ≤ 1
    · have hdep : depth = 1 := by omega
      simp [frameAddr, hd, hdep]
    · simp only [frameAddr, if_neg hd]
      simp
      omega

theorem frameAddr_wf {a : Addr} {nm : Option (List Nat)} {depth : Nat}
    (ha : addrWF a) (hn : nameWF nm) : addrWF (frameAddr a nm depth) := by
  cases nm with
  | none =>
    intro s hs
    simp [frameAddr] at hs
  | some n =>
    intro s hs
    simp only [frameAddr] at hs
    split at hs
    · simp at hs
      subst hs
      exact hn
    · rcases List.mem_append.mp hs with h | h
      · exact ha s (List.take_subset _ _ h)
      · simp at h
        subst h
        exact hn

theorem update_join {a : Addr} {nm : Option (List Nat)} {depth : Nat}
    (hfit : fitsB a nm depth) (ha : addrWF a) (hn : nameWF nm) :
    update_full_path (joinPath a) a.length nm depth
      = some (joinPath (frameAddr a nm depth), depth) := by
  cases nm with
  | none =>
    have hd : depth = 0 := hfit
    subst hd
    simp [update_full_path, frameAddr, joinPath]
  | some n =>
    obtain ⟨h1, h2⟩ := hfit
    by_cases hd : depth < 2
    · have hdep : depth = 1 := by omega
      subst hdep
      simp [update_full_path, frameAddr, joinPath]
    · have h2d : 2 ≤ depth := by omega
      have hpop := popLoop_join depth a h2d h2 (fun s hs => (ha s hs).2)
      simp only [update_full_path, if_neg hd, hpop]
      have htne : a.take (depth - 1) ≠ [] := by
        have hlen : (a.take (depth - 1)).length = depth - 1 := by
          simp
          omega
        intro he
        rw [he] at hlen
        simp at hlen
        omega
      have hjne : joinPath (a.take (depth - 1)) ≠ [] :=
        joinPath_ne_nil htne (fun s hs => (ha s (List.take_subset _ _ hs)).1)
      have hemp : (joinPath (a.take (depth - 1))).isEmpty = false := by
        cases hj : joinPath (a.take (depth - 1)) with
        | nil => exact absurd hj hjne
        | cons x r => rfl
      have hja : joinPath (a.take (depth - 1) ++ [n])
          = joinPath (a.take (depth - 1)) ++ 47 :: n :=
        joinPath_append_single _ _ htne
      have hod : depth - 1 + 1 = depth := by omega
      simp only [hemp, hod, frameAddr, if_neg (by omega : ¬ depth ≤ 1), hja]
      simp [List.append_assoc]

theorem pendAddrs_append (l1 l2 : List Visited) :
    ∀ a, pendAddrs (l1 ++ l2) a = pendAddrs l1 a ++ pendAddrs l2 (endAddr l1 a) := by
  induction l1 with
  | nil =>
    intro a
    simp [pendAddrs, endAddr]
  | cons f r ih =>
    intro a
    simp only [List.cons_append, pendAddrs, endAddr, List.append_eq, ih, List.append_assoc]

theorem PendOK_append {l1 l2 : List Visited} {a : Addr}
    (h1 : PendOK l1 a) : PendOK l2 (endAddr l1 a) → PendOK (l1 ++ l2) a := by
  induction h1 with
  | nil a2 =>
    intro h2
    simpa [endAddr] using h2
  | cons hfit hnm hfwf hrest ih =>
    intro h2
    rw [List.cons_append]
    exact PendOK.cons hfit hnm hfwf (ih (by simpa [endAddr] using h2))

theorem frameWeight_pos (f : Visited) : 1 ≤ frameWeight f := by
  cases f with
  | Descent node nm dep =>
    simp [frameWeight, dirWeight_eq]
    omega
  | Post p i nm dep lv => simp [frameWeight]

theorem postStep_emit_path {opts table buffer} {fp : List Nat} {pid idv nm leaves}
    {nd : TreeNode} {t2 : CidTable} {b2 : List Nat}
    (h : postStep opts table buffer fp pid idv nm leaves = .emit nd t2 b2) :
    nd.path = fp := by
  simp only [postStep] at h
  split at h
  · split at h <;> simp at h
  · split at h
    · simp at h
    · split at h
      · split at h
        · simp at h
        · simp only [PostOut.emit.injEq] at h
          rw [← h.1]
      · simp only [PostOut.emit.injEq] at h
        rw [← h.1]

theorem wfEntry_directory {e : Entry} {d : DirBuilder} (he : e = .directory d)
    (h : wfEntry e = true) : wfDir d = true := by
  subst he
  simpa [wfEntry] using h

theorem wfNodes_children : ∀ {nodes : List (List Nat × Entry)}, wfNodes nodes = true →
    ∀ kd ∈ childrenDirs nodes, (kd.1 ≠ [] ∧ ¬ 47 ∈ kd.1) ∧ wfDir kd.2 = true := by
  intro nodes
  induction nodes with
  | nil =>
    intro _ kd hkd
    simp [childrenDirs] at hkd
  | cons kv rest ih =>
    intro hwf kd hkd
    have hwf2 := hwf
    simp only [wfNodes, Bool.and_eq_true, decide_eq_true_eq] at hwf2
    obtain ⟨⟨⟨⟨h1, h2⟩, h3⟩, h4⟩, h5⟩ := hwf2
    cases he : kv.2 with
    | directory d =>
      simp only [childrenDirs, List.filterMap_cons, he, List.mem_cons] at hkd
      rcases hkd with h | h
      · subst h
        exact ⟨⟨h1, h2⟩, wfEntry_directory he h3⟩
      · exact ih h5 kd h
    | leaf l =>
      simp only [childrenDirs, List.filterMap_cons, he] at hkd
      exact ih h5 kd hkd

theorem postNodes_eq (a : Addr) : ∀ nodes, postNodes a nodes
    = ((childrenDirs nodes).reverse.map (fun kd => postListA (a ++ [kd.1]) kd.2)).flatten := by
  intro nodes
  induction nodes with
  | nil => simp [postNodes, childrenDirs]
  | cons kv rest ih =>
    obtain ⟨k, e⟩ := kv
    cases e with
    | directory d =>
      simp only [postNodes, childrenDirs, List.filterMap_cons]
      rw [ih]
      simp [childrenDirs]
    | leaf l =>
      simp only [postNodes, childrenDirs, List.filterMap_cons]
      rw [ih]
      simp [childrenDirs]

theorem frameAddr_again {a start2 : Addr} {nm : Option (List Nat)} {dep : Nat}
    (hfit : fitsB a nm dep)
    (hst : start2.take (frameAddr a nm dep).length = frameAddr a nm dep)
    (hlen : (frameAddr a nm dep).length ≤ start2.length) :
    fitsB start2 nm dep ∧ frameAddr start2 nm dep = frameAddr a nm dep := by
  have hflen := frameAddr_length hfit
  cases nm with
  | none =>
    have hd : dep = 0 := hfit
    exact ⟨hd, rfl⟩
  | some n =>
    obtain ⟨h1, h2⟩ := hfit
    rw [hflen] at hst hlen
    refine ⟨⟨h1, by omega⟩, ?_⟩
    by_cases hd : dep ≤ 1
    · simp [frameAddr, hd]
    · simp only [frameAddr, if_neg hd]
      have ht : start2.take (dep - 1) = (frameAddr a (some n) dep).take (dep - 1) := by
        rw [← hst, List.take_take]
        congr 1
        omega
      rw [ht]
      simp only [frameAddr, if_neg hd]
      rw [List.take_append_of_le_length (by simp; omega)]
      have : (a.take (dep - 1)).take (dep - 1) = a.take (dep - 1) := by
        rw [List.take_take]
        simp
      rw [this]

theorem children_chain (c : Addr) :
    ∀ (ds : List (List Nat × DirBuilder)) (start : Addr),
      start.take c.length = c →
      c.length ≤ start.length → start.length ≤ c.length + 1 →
      (∀ kd ∈ ds, (kd.1 ≠ [] ∧ ¬ 47 ∈ kd.1) ∧ wfDir kd.2 = true) →
      PendOK (ds.map (fun kd => Visited.Descent kd.2 (some kd.1) (c.length + 1))) start
      ∧ pendAddrs (ds.map (fun kd => Visited.Descent kd.2 (some kd.1) (c.length + 1))) start
          = (ds.map (fun kd => postListA (c ++ [kd.1]) kd.2)).flatten
      ∧ (endAddr (ds.map (fun kd => Visited.Descent kd.2 (some kd.1) (c.length + 1))) start).take
            c.length = c
      ∧ c.length
          ≤ (endAddr (ds.map (fun kd => Visited.Descent kd.2 (some kd.1) (c.length + 1)))
              start).length
      ∧ (endAddr (ds.map (fun kd => Visited.Descent kd.2 (some kd.1) (c.length + 1)))
            start).length ≤ c.length + 1 := by
  intro ds
  induction ds with
  | nil =>
    intro start h1 h2 h3 _
    exact ⟨PendOK.nil start, by simp [pendAddrs], by simpa [endAddr] using h1,
      by simpa [endAddr] using h2, by simpa [endAddr] using h3⟩
  | cons kd ds2 ih =>
    intro start h1 h2 h3 hds
    obtain ⟨⟨hk1, hk2⟩, hkwf⟩ := hds kd (by simp)
    have hfit : fitsB start (some kd.1) (c.length + 1) := by
      refine ⟨by omega, ?_⟩
      simp
      omega
    have hfa : frameAddr start (some kd.1) (c.length + 1) = c ++ [kd.1] := by
      by_cases hd : c.length + 1 ≤ 1
      · have hc0 : c.length = 0 := by omega
        have hc : c = [] := List.length_eq_zero.mp hc0
        simp [frameAddr, hd, hc]
      · simp only [frameAddr, if_neg hd]
        have he : c.length + 1 - 1 = c.length := by omega
        rw [he, h1]
    have hih := ih (c ++ [kd.1]) (by simpa using List.take_left c [kd.1])
      (by simp) (by simp) (fun kd2 hk => hds kd2 (List.mem_cons_of_mem _ hk))
    obtain ⟨ha1, ha2, ha3, ha4, ha5⟩ := hih
    refine ⟨?_, ?_, ?_, ?_, ?_⟩
    · refine PendOK.cons hfit ⟨hk1, hk2⟩ hkwf ?_
      simp only [frameName, frameDepth, hfa]
      exact ha1
    · simp only [List.map_cons, pendAddrs, frameEmits, frameName, frameDepth, hfa,
        List.flatten_cons]
      rw [ha2]
    · simp only [List.map_cons, endAddr, frameName, frameDepth, hfa]
      exact ha3
    · simp only [List.map_cons, endAddr, frameName, frameDepth, hfa]
      exact ha4
    · simp only [List.map_cons, endAddr, frameName, frameDepth, hfa]
      exact ha5

theorem run_paths : ∀ (n : Nat) (pending : List Visited) (opts : TreeOptions)
    (buffer : List Nat) (table : CidTable) (a : Addr),
    pendingWeight pending ≤ n → PendOK pending a → addrWF a →
    ∃ t, ((run opts (joinPath a) a.length buffer table pending).1.map (fun nd => nd.path)) ++ t
        = (pendAddrs pending a).map joinPath := by
  intro n
  induction n with
  | zero =>
    intro pending opts buffer table a hw _ _
    cases pending with
    | nil =>
      refine ⟨[], ?_⟩
      simp [run, pendAddrs]
    | cons f rest =>
      exfalso
      have h1 := frameWeight_pos f
      have h2 : pendingWeight (f :: rest) = frameWeight f + pendingWeight rest := by
        simp [pendingWeight]
      omega
  | succ n ih =>
    intro pending opts buffer table a hw hPend ha
    cases pending with
    | nil =>
      refine ⟨[], ?_⟩
      simp [run, pendAddrs]
    | cons f rest =>
      cases hPend with
      | cons hfit hnm hfwf hrest =>
        have hupd := update_join hfit ha hnm
        have hafwf : addrWF (frameAddr a (frameName f) (frameDepth f)) :=
          frameAddr_wf ha hnm
        have haflen : (frameAddr a (frameName f) (frameDepth f)).length = frameDepth f :=
          frameAddr_length hfit
        cases f with
        | Descent node nm dep =>
          obtain ⟨nid, npid, nnodes⟩ := node
          simp only [frameName, frameDepth] at hupd hafwf haflen hrest hfit
          have hwfn : wfNodes nnodes = true := by
            simpa [frameWF, wfDir] using hfwf
          have hframes : (descendChildren nnodes dep).reverse
              = (childrenDirs nnodes).reverse.map
                  (fun kd => Visited.Descent kd.2 (some kd.1) (dep + 1)) := by
            simp [descendChildren, List.map_reverse]
          have hchain := children_chain (frameAddr a nm dep) ((childrenDirs nnodes).reverse)
            (frameAddr a nm dep) (by simp) (by omega) (by omega)
            (fun kd hk => wfNodes_children hwfn kd (List.mem_reverse.mp hk))
          obtain ⟨hPok, hpendF, he1, he2, he3⟩ := hchain
          obtain ⟨hfit2, hfa2⟩ := frameAddr_again hfit he1 he2
          rw [haflen] at hPok hpendF he1 he2 he3 hfit2 hfa2
          have hPostOK : PendOK
              (Visited.Post npid nid nm dep (childrenLeaves nnodes) :: rest)
              (endAddr ((childrenDirs nnodes).reverse.map
                (fun kd => Visited.Descent kd.2 (some kd.1) (dep + 1)))
                (frameAddr a nm dep)) := by
            refine PendOK.cons hfit2 hnm trivial ?_
            simp only [frameName, frameDepth]
            rw [hfa2]
            exact hrest
          have hAll := PendOK_append hPok hPostOK
          have hwF : pendingWeight ((childrenDirs nnodes).reverse.map
              (fun kd => Visited.Descent kd.2 (some kd.1) (dep + 1))) = nodesWeight nnodes := by
            rw [← hframes, pendingWeight_reverse]
            exact descendChildren_weight _ _
          have hw2 : pendingWeight (((childrenDirs nnodes).reverse.map
              (fun kd => Visited.Descent kd.2 (some kd.1) (dep + 1)))
              ++ Visited.Post npid nid nm dep (childrenLeaves nnodes) :: rest) ≤ n := by
            rw [pendingWeight_append, hwF]
            have hc : pendingWeight (Visited.Post npid nid nm dep (childrenLeaves nnodes) :: rest)
                = 1 + pendingWeight rest := by
              simp [pendingWeight, frameWeight]
            have hd : pendingWeight
                (Visited.Descent (DirBuilder.mk nid npid nnodes) nm dep :: rest)
                = (2 + nodesWeight nnodes) + pendingWeight rest := by
              simp [pendingWeight, frameWeight, dirWeight]
            rw [hd] at hw
            omega
          have hih := ih (((childrenDirs nnodes).reverse.map
              (fun kd => Visited.Descent kd.2 (some kd.1) (dep + 1)))
              ++ Visited.Post npid nid nm dep (childrenLeaves nnodes) :: rest)
            opts buffer table (frameAddr a nm dep) hw2 hAll hafwf
          rw [haflen] at hih
          have hpendEq : pendAddrs (((childrenDirs nnodes).reverse.map
              (fun kd => Visited.Descent kd.2 (some kd.1) (dep + 1)))
              ++ Visited.Post npid nid nm dep (childrenLeaves nnodes) :: rest)
              (frameAddr a nm dep)
              = postListA (frameAddr a nm dep) (DirBuilder.mk nid npid nnodes)
                ++ pendAddrs rest (frameAddr a nm dep) := by
            rw [pendAddrs_append, hpendF]
            simp only [pendAddrs, frameEmits, frameName, frameDepth, hfa2]
            rw [show postListA (frameAddr a nm dep) (DirBuilder.mk nid npid nnodes)
                = postNodes (frameAddr a nm dep) nnodes ++ [frameAddr a nm dep] by
              simp [postListA]]
            rw [postNodes_eq]
            simp [List.append_assoc]
          obtain ⟨t, ht⟩ := hih
          refine ⟨t, ?_⟩
          simp only [run, frameName, frameDepth, hupd, DirBuilder.nodes, DirBuilder.id,
            DirBuilder.parent_id, hframes]
          rw [ht, hpendEq]
          simp only [pendAddrs, frameEmits, frameName, frameDepth]
        | Post pid idv nm dep leaves =>
          simp only [frameName, frameDepth] at hupd hafwf haflen hrest hfit
          have hw2 : pendingWeight rest ≤ n := by
            have hc : pendingWeight (Visited.Post pid idv nm dep leaves :: rest)
                = 1 + pendingWeight rest := by
              simp [pendingWeight, frameWeight]
            omega
          cases hps : postStep opts table buffer (joinPath (frameAddr a nm dep))
              pid idv nm leaves with
          | finishEarly =>
            refine ⟨(pendAddrs (Visited.Post pid idv nm dep leaves :: rest) a).map joinPath, ?_⟩
            simp only [run, frameName, frameDepth, hupd, hps]
            simp
          | panic =>
            refine ⟨(pendAddrs (Visited.Post pid idv nm dep leaves :: rest) a).map joinPath, ?_⟩
            simp only [run, frameName, frameDepth, hupd, hps]
            simp
          | fail e =>
            refine ⟨(pendAddrs (Visited.Post pid idv nm dep leaves :: rest) a).map joinPath, ?_⟩
            simp only [run, frameName, frameDepth, hupd, hps]
            simp
          | emit nd t2 b2 =>
            have hpath := postStep_emit_path hps
            have hih := ih rest opts b2 t2 (frameAddr a nm dep) hw2 hrest hafwf
            rw [haflen] at hih
            obtain ⟨t, ht⟩ := hih
            refine ⟨t, ?_⟩
            simp only [run, frameName, frameDepth, hupd, hps]
            simp only [pendAddrs, frameEmits, frameName, frameDepth,
              List.singleton_append, List.map_cons]
            rw [hpath, List.cons_append, ht]

theorem wfNodes_pairwise : ∀ {nodes : List (List Nat × Entry)}, wfNodes nodes = true →
    nodes.Pairwise (fun x y => lexLt x.1 y.1 = true) := by
  intro nodes
  induction nodes with
  | nil => intro _; exact List.Pairwise.nil
  | cons kv rest ih =>
    intro hwf
    simp only [wfNodes, Bool.and_eq_true, decide_eq_true_eq] at hwf
    obtain ⟨⟨⟨⟨h1, h2⟩, h3⟩, h4⟩, h5⟩ := hwf
    have hrest := ih h5
    refine List.pairwise_cons.mpr ⟨?_, hrest⟩
    intro x hx
    cases rest with
    | nil => simp at hx
    | cons kv2 r2 =>
      rcases List.mem_cons.mp hx with h | h
      · subst h
        exact h4
      · obtain ⟨hhead, _⟩ := List.pairwise_cons.mp hrest
        exact lexLt_trans h4 (hhead x h)

theorem childrenDirs_mem : ∀ {nodes : List (List Nat × Entry)}
    {kd : List Nat × DirBuilder}, kd ∈ childrenDirs nodes →
      (kd.1, Entry.directory kd.2) ∈ nodes := by
  intro nodes
  induction nodes with
  | nil =>
    intro kd h
    simp [childrenDirs] at h
  | cons kv rest ih =>
    intro kd h
    cases he : kv.2 with
    | directory d =>
      simp only [childrenDirs, List.filterMap_cons, he, List.mem_cons] at h
      rcases h with h | h
      · subst h
        simp only [List.mem_cons]
        left
        rw [← he]
      · exact List.mem_cons_of_mem _ (ih h)
    | leaf l =>
      simp only [childrenDirs, List.filterMap_cons, he] at h
      exact List.mem_cons_of_mem _ (ih h)

theorem addr_ne_of_key_ne {a : Addr} {k k2 : List Nat} (hne : k ≠ k2) {x y : Addr}
    (hx : ∃ t, (a ++ [k]) ++ t = x) (hy : ∃ t, (a ++ [k2]) ++ t = y) : ¬ addrLt x y := by
  rintro ⟨t, _, ht⟩
  obtain ⟨t1, ht1⟩ := hx
  obtain ⟨t2, ht2⟩ := hy
  apply hne
  have ht3 : a ++ (k :: (t1 ++ t)) = a ++ (k2 :: t2) := by
    have hcomb : (a ++ [k] ++ t1) ++ t = a ++ [k2] ++ t2 := by
      rw [ht1, ht2]
      exact ht
    simpa [List.append_assoc] using hcomb
  have ht4 := List.append_cancel_left ht3
  simp at ht4
  exact ht4.1

theorem postA_facts : ∀ (n : Nat) (d : DirBuilder), dirWeight d ≤ n → ∀ (a : Addr),
    wfDir d = true → addrWF a →
    (∀ z ∈ postListA a d, (∃ t, a ++ t = z) ∧ addrWF z)
    ∧ (postListA a d).Pairwise (fun x y => ¬ addrLt x y) := by
  intro n
  induction n with
  | zero =>
    intro d hwt
    rw [dirWeight_eq] at hwt
    omega
  | succ n ih =>
    intro d hwt a hwf haw
    obtain ⟨nid, npid, nodes⟩ := d
    rw [dirWeight_eq] at hwt
    simp only [DirBuilder.nodes] at hwt
    have hwfn : wfNodes nodes = true := by simpa [wfDir] using hwf
    have hN : ∀ (ns : List (List Nat × Entry)), nodesWeight ns ≤ n → wfNodes ns = true →
        (∀ z ∈ postNodes a ns, addrWF z
          ∧ ∃ kd ∈ childrenDirs ns, ∃ t, (a ++ [kd.1]) ++ t = z)
        ∧ (postNodes a ns).Pairwise (fun x y => ¬ addrLt x y) := by
      intro ns
      induction ns with
      | nil =>
        intro _ _
        constructor
        · intro z hz
          simp [postNodes] at hz
        · simp [postNodes]
      | cons kv rest ihn =>
        intro hwn hwfn2
        obtain ⟨k, e⟩ := kv
        have hwf3 := hwfn2
        simp only [wfNodes, Bool.and_eq_true, decide_eq_true_eq] at hwf3
        obtain ⟨⟨⟨⟨hk1, hk2⟩, h3⟩, h4⟩, h5⟩ := hwf3
        have hwn2 : nodesWeight rest ≤ n := by
          simp only [nodesWeight] at hwn
          omega
        have hrestF := ihn hwn2 h5
        have hheadlt : ∀ kd ∈ childrenDirs rest, lexLt k kd.1 = true := by
          intro kd hkd
          have hp := wfNodes_pairwise hwfn2
          obtain ⟨hhead, _⟩ := List.pairwise_cons.mp hp
          exact hhead _ (childrenDirs_mem hkd)
        cases he : e with
        | leaf l =>
          have hpn : postNodes a ((k, Entry.leaf l) :: rest) = postNodes a rest := by
            simp [postNodes]
          have hcd : childrenDirs ((k, Entry.leaf l) :: rest) = childrenDirs rest := by
            simp [childrenDirs, List.filterMap_cons]
          rw [hpn, hcd]
          exact hrestF
        | directory d2 =>
          have hpn : postNodes a ((k, Entry.directory d2) :: rest)
              = postNodes a rest ++ postListA (a ++ [k]) d2 := by
            simp [postNodes]
          have hcd : childrenDirs ((k, Entry.directory d2) :: rest)
              = (k, d2) :: childrenDirs rest := by
            simp [childrenDirs, List.filterMap_cons]
          have hd2w : dirWeight d2 ≤ n := by
            rw [he] at hwn
            simp only [nodesWeight, entryWeight] at hwn
            omega
          have hd2wf : wfDir d2 = true := wfEntry_directory he h3
          have hkaw : addrWF (a ++ [k]) := by
            intro s hs
            rcases List.mem_append.mp hs with h | h
            · exact haw s h
            · simp at h
              subst h
              exact ⟨hk1, hk2⟩
          have hsub := ih d2 hd2w (a ++ [k]) hd2wf hkaw
          obtain ⟨hsubMem, hsubPair⟩ := hsub
          rw [hpn, hcd]
          constructor
          · intro z hz
            rcases List.mem_append.mp hz with h | h
            · obtain ⟨hzwf, kd, hkd, t, hteq⟩ := (hrestF.1 z h)
              exact ⟨hzwf, kd, List.mem_cons_of_mem _ hkd, t, hteq⟩
            · obtain ⟨⟨t, hteq⟩, hzwf⟩ := hsubMem z h
              exact ⟨hzwf, (k, d2), by simp, t, by simpa using hteq⟩
          · rw [List.pairwise_append]
            refine ⟨hrestF.2, hsubPair, ?_⟩
            intro x hx y hy
            obtain ⟨_, kd, hkd, t1, ht1⟩ := hrestF.1 x hx
            obtain ⟨⟨t2, ht2⟩, _⟩ := hsubMem y hy
            have hne : kd.1 ≠ k := Ne.symm (ne_of_lexLt (hheadlt kd hkd))
            exact addr_ne_of_key_ne hne ⟨t1, ht1⟩ ⟨t2, by simpa using ht2⟩
    have hNF := hN nodes (by omega) hwfn
    have hplist : postListA a (DirBuilder.mk nid npid nodes)
        = postNodes a nodes ++ [a] := by
      simp [postListA]
    rw [hplist]
    constructor
    · intro z hz
      rcases List.mem_append.mp hz with h | h
      · obtain ⟨hzwf, kd, hkd, t, hteq⟩ := hNF.1 z h
        refine ⟨⟨[kd.1] ++ t, ?_⟩, hzwf⟩
        rw [← List.append_assoc]
        exact hteq
      · simp at h
        subst h
        exact ⟨⟨[], by simp⟩, haw⟩
    · rw [List.pairwise_append]
      refine ⟨hNF.2, by simp, ?_⟩
      intro x hx y hy
      simp at hy
      rintro ⟨t2, ht2ne, ht2⟩
      rw [hy] at ht2
      obtain ⟨_, kd, hkd, t, hteq⟩ := hNF.1 x hx
      have hlx : a.length + 1 ≤ x.length := by
        rw [← hteq]
        simp
      have hly : x.length < (x ++ t2).length := by
        cases t2 with
        | nil => exact absurd rfl ht2ne
        | cons c r => simp
      rw [ht2] at hly
      omega

theorem slashfree_cancel : ∀ {s : List Nat} {u s2 v : List Nat},
    ¬ 47 ∈ s → ¬ 47 ∈ s2 → s ++ 47 :: u = s2 ++ 47 :: v → s = s2 ∧ u = v := by
  intro s
  induction s with
  | nil =>
    intro u s2 v _ hs2 he
    cases s2 with
    | nil =>
      simp at he
      exact ⟨rfl, he⟩
    | cons b r =>
      simp only [List.nil_append, List.cons_append, List.cons.injEq] at he
      exact absurd (by rw [he.1]; simp : 47 ∈ b :: r) hs2
  | cons b r ihs =>
    intro u s2 v hs hs2 he
    cases s2 with
    | nil =>
      simp only [List.nil_append, List.cons_append, List.cons.injEq] at he
      exact absurd (by rw [← he.1]; simp : 47 ∈ b :: r) hs
    | cons b2 r2 =>
      simp only [List.cons_append, List.cons.injEq] at he
      obtain ⟨hb, htail⟩ := he
      have hs3 : ¬ 47 ∈ r := fun h => hs (List.mem_cons_of_mem _ h)
      have hs4 : ¬ 47 ∈ r2 := fun h => hs2 (List.mem_cons_of_mem _ h)
      obtain ⟨h1, h2⟩ := ihs hs3 hs4 htail
      exact ⟨by rw [hb, h1], h2⟩

theorem descPath_join : ∀ (x y : Addr), addrWF x → addrWF y →
    descPath (joinPath x) (joinPath y) → addrLt x y := by
  intro x
  induction x with
  | nil =>
    intro y hx hy h
    have hyne : y ≠ [] := by
      intro he
      subst he
      rcases h with ⟨_, hq⟩ | ⟨t, hq⟩
      · exact hq rfl
      · simp [joinPath] at hq
    exact ⟨y, hyne, by simp⟩
  | cons s x2 ihx =>
    intro y hx hy h
    obtain ⟨hs1, hs2⟩ := hx s (by simp)
    have hne : joinPath (s :: x2) ≠ [] :=
      joinPath_ne_nil (by simp) (fun z hz => (hx z hz).1)
    rcases h with ⟨hp, _⟩ | ⟨t, hq⟩
    · exact absurd hp hne
    cases y with
    | nil =>
      rw [show joinPath ([] : Addr) = [] from rfl] at hq
      exact absurd hq.symm (by simp)
    | cons s2 y2 =>
      obtain ⟨hs21, hs22⟩ := hy s2 (by simp)
      cases x2 with
      | nil =>
        cases y2 with
        | nil =>
          rw [show joinPath [s2] = s2 from rfl, show joinPath [s] = s from rfl] at hq
          exact absurd (by rw [hq]; simp : 47 ∈ s2) hs22
        | cons s4 y3 =>
          rw [show joinPath (s2 :: s4 :: y3) = s2 ++ 47 :: joinPath (s4 :: y3) from rfl,
            show joinPath [s] = s from rfl] at hq
          obtain ⟨hk, _⟩ := slashfree_cancel hs22 hs2 hq
          refine ⟨s4 :: y3, by simp, ?_⟩
          rw [hk]
          rfl
      | cons s3 x3 =>
        cases y2 with
        | nil =>
          rw [show joinPath [s2] = s2 from rfl,
            show joinPath (s :: s3 :: x3) = s ++ 47 :: joinPath (s3 :: x3) from rfl] at hq
          rw [List.append_assoc, List.cons_append] at hq
          exact absurd (by rw [hq]; simp : 47 ∈ s2) hs22
        | cons s4 y3 =>
          rw [show joinPath (s2 :: s4 :: y3) = s2 ++ 47 :: joinPath (s4 :: y3) from rfl,
            show joinPath (s :: s3 :: x3) = s ++ 47 :: joinPath (s3 :: x3) from rfl] at hq
          rw [List.append_assoc, List.cons_append] at hq
          obtain ⟨hk, htail⟩ := slashfree_cancel hs22 hs2 hq
          have hx2wf : addrWF (s3 :: x3) := fun z hz => hx z (List.mem_cons_of_mem _ hz)
          have hy2wf : addrWF (s4 :: y3) := fun z hz => hy z (List.mem_cons_of_mem _ hz)
          have hdp : descPath (joinPath (s3 :: x3)) (joinPath (s4 :: y3)) := by
            right
            exact ⟨t, htail⟩
          obtain ⟨t2, ht2ne, ht2⟩ := ihx (s4 :: y3) hx2wf hy2wf hdp
          refine ⟨t2, ht2ne, ?_⟩
          rw [hk, List.cons_append, ht2]

/-- C5: in the output sequence of the traversal of a well-formed input
tree, no emitted node is followed by a node lying strictly below it in the
path hierarchy: every directory's descendants are emitted strictly before
it (strict post-order), because the finalize frame of a directory is pushed
beneath, and popped after, the descend frames of all its child
directories. -/
theorem C5_strict_post_order (root : DirBuilder) (opts : TreeOptions)
    (hwf : wfDir root = true) :
    ((runIter root opts).1).Pairwise (fun x y => ¬ descPath x.path y.path)
    ∧ (∃ t, ((runIter root opts).1.map (fun nd => nd.path)) ++ t
        = (postListA ([] : Addr) root).map joinPath) := by
  have hpend : PendOK [Visited.Descent root none 0] [] := by
    refine PendOK.cons ?_ ?_ ?_ (PendOK.nil _)
    · exact rfl
    · exact trivial
    · exact hwf
  have haw : addrWF ([] : Addr) := by
    intro s hs
    simp at hs
  have hmain := run_paths (pendingWeight [Visited.Descent root none 0])
    [Visited.Descent root none 0] opts [] [] [] (le_refl _) hpend haw
  obtain ⟨t, ht⟩ := hmain
  have hri : runIter root opts
      = run opts (joinPath ([] : Addr)) (List.length ([] : Addr)) [] []
          [Visited.Descent root none 0] := rfl
  rw [← hri] at ht
  have hpa : pendAddrs [Visited.Descent root none 0] ([] : Addr)
      = postListA ([] : Addr) root := by
    simp [pendAddrs, frameEmits, frameName, frameDepth, frameAddr]
  rw [hpa] at ht
  have hfacts := postA_facts (dirWeight root) root (le_refl _) [] hwf haw
  obtain ⟨hmem, hpair⟩ := hfacts
  have hpair2 : (postListA ([] : Addr) root).Pairwise
      (fun x y => ¬ descPath (joinPath x) (joinPath y)) := by
    refine List.Pairwise.imp_of_mem ?_ hpair
    intro x y hxm hym hR hd
    exact hR (descPath_join x y (hmem x hxm).2 (hmem y hym).2 hd)
  have hpair3 : ((postListA ([] : Addr) root).map joinPath).Pairwise
      (fun p q => ¬ descPath p q) := (List.pairwise_map).mpr hpair2
  have hsub : ((runIter root opts).1.map (fun nd => nd.path)).Sublist
      ((postListA ([] : Addr) root).map joinPath) := by
    rw [← ht]
    exact List.sublist_append_left _ _
  have hpair4 : ((runIter root opts).1.map (fun nd => nd.path)).Pairwise
      (fun p q => ¬ descPath p q) := List.Pairwise.sublist hsub hpair3
  exact ⟨(List.pairwise_map).mp hpair4, t, ht⟩

theorem C5_witness :
    wfDir (DirBuilder.mk 0 none [([97], Entry.leaf ⟨⟨[1]⟩, 1⟩),
      ([98], Entry.directory (DirBuilder.mk 1 (some 0) []))]) = true
    ∧ (((runIter (DirBuilder.mk 0 none [([97], Entry.leaf ⟨⟨[1]⟩, 1⟩),
        ([98], Entry.directory (DirBuilder.mk 1 (some 0) []))]) ⟨true, none⟩).1).Pairwise
        (fun x y => ¬ descPath x.path y.path)
      ∧ (∃ t, ((runIter (DirBuilder.mk 0 none [([97], Entry.leaf ⟨⟨[1]⟩, 1⟩),
          ([98], Entry.directory (DirBuilder.mk 1 (some 0) []))])
            ⟨true, none⟩).1.map (fun nd => nd.path)) ++ t
          = (postListA ([] : Addr) (DirBuilder.mk 0 none [([97], Entry.leaf ⟨⟨[1]⟩, 1⟩),
              ([98], Entry.directory (DirBuilder.mk 1 (some 0) []))])).map joinPath)) :=
  ⟨by decide, C5_strict_post_order _ ⟨true, none⟩ (by decide)⟩

theorem C1_amended_witness :
    bLookup [97] (bExtend [([97], ⟨⟨[1]⟩, 1⟩)] [([97], ⟨⟨[2]⟩, 2⟩)]) = some ⟨⟨[2]⟩, 2⟩
    ∧ (⟨true, none⟩ : TreeOptions).block_size_limit = none
    ∧ ((⟨true, none⟩ : TreeOptions).wrap_with_directory = true ∨ (none : Option Nat) ≠ none)
    ∧ bLookup [97] ((hmLookup none
        (hmRemove (some 5) [(none, [([97], (⟨⟨[3]⟩, 3⟩ : Leaf))])]).2).getD [])
        = some ⟨⟨[3]⟩, 3⟩
    ∧ ((hmLookup none
        (hmRemove (some 5) [(none, [([97], (⟨⟨[3]⟩, 3⟩ : Leaf))])]).2).getD []).Pairwise keyLt
    ∧ postStep ⟨true, none⟩ [(none, [([97], ⟨⟨[3]⟩, 3⟩)])] [] [] none 5 (some [97]) []
        = PostOut.panic :=
  ⟨C1_merge_overwrites_only_deposit_asserts.1 [([97], ⟨⟨[1]⟩, 1⟩)] [97] ⟨⟨[2]⟩, 2⟩,
    rfl, Or.inl rfl, by decide, by decide,
    C1_merge_overwrites_only_deposit_asserts.2.2 ⟨true, none⟩
      [(none, [([97], ⟨⟨[3]⟩, 3⟩)])] [] [] none 5 [97] [] ⟨⟨[3]⟩, 3⟩ rfl (Or.inl rfl)
      (by decide) (by decide)⟩

end UnixFsIter
